import Mathlib

/-!
Verification of a scalar reverse-mode automatic differentiation engine
(a micrograd-style `Value` class) against its specification.

The Python program is shallowly embedded: the object graph becomes a list
of nodes addressed by allocation index (`NodeId`), object identity becomes
the index, the per-node `_backward` closure becomes the constructor tag
`BOp` recording which operation built the node together with the data the
closure captured, and the mutable `grad` field becomes explicit state
passing.  Numeric values are rationals (real-number semantics of the
arithmetic); `math.exp` is an uninterpreted parameter `E : Q -> Q` of the
two node builders that mention it, since no claim depends on properties of
the exponential.
-/

abbrev NodeId := Nat

/-- The operation that produced a node, together with everything its
`_backward` closure captured: the operand object references (ids) and, for
`tanh`, the forward value `t` captured at construction time. -/
inductive BOp where
  | leaf : BOp
  | add (a b : NodeId) : BOp
  | mul (a b : NodeId) : BOp
  | powi (a : NodeId) (p : ℤ) : BOp
  | tanhOp (a : NodeId) (t : ℚ) : BOp
  | expOp (a : NodeId) : BOp
  deriving Repr, DecidableEq

/-- One `Value` object: `data`, `grad`, `_prev` (a set of object ids,
modelled as a deduplicated list), the `_backward` closure (`bop`), `_op`
and `label`. -/
structure Node where
  data : ℚ
  grad : ℚ
  prev : List NodeId
  bop : BOp
  op : String
  label : String
  deriving Repr, DecidableEq

def dNode : Node :=
  { data := 0, grad := 0, prev := [], bop := .leaf, op := "", label := "" }

/-- The heap of allocated `Value` objects, in allocation order. -/
abbrev State := List Node

def nodeOf (s : State) (v : NodeId) : Node := s.getD v dNode

def dataOf (s : State) (v : NodeId) : ℚ := (nodeOf s v).data
def gradOf (s : State) (v : NodeId) : ℚ := (nodeOf s v).grad
def prevOf (s : State) (v : NodeId) : List NodeId := (nodeOf s v).prev
def bopOf (s : State) (v : NodeId) : BOp := (nodeOf s v).bop
def opOf (s : State) (v : NodeId) : String := (nodeOf s v).op
def labelOf (s : State) (v : NodeId) : String := (nodeOf s v).label

/-- Allocate a fresh node; its id is the previous heap size. -/
def pushNode (s : State) (n : Node) : State × NodeId := (s ++ [n], s.length)

/-- `v.grad = g` (an assignment to the only mutable field). -/
def setGrad (s : State) (v : NodeId) (g : ℚ) : State :=
  s.set v { nodeOf s v with grad := g }

/-- `v.grad += x`. -/
def addGrad (s : State) (v : NodeId) (x : ℚ) : State :=
  s.set v { nodeOf s v with grad := (nodeOf s v).grad + x }

/-- `Value(data, _children, _op, label)` with the default no-op backward:
`self._prev = set(_children)` is the deduplication of the children list. -/
def leafV (s : State) (d : ℚ) (label : String) : State × NodeId :=
  pushNode s { data := d, grad := 0, prev := [], bop := .leaf, op := "",
               label := label }

/-- `Value.__add__` on two existing nodes: forward `self.data + other.data`,
children `(self, other)` deduplicated by `set`, backward closure `.add a b`. -/
def addV (s : State) (a b : NodeId) : State × NodeId :=
  pushNode s { data := dataOf s a + dataOf s b, grad := 0,
               prev := List.dedup [a, b], bop := .add a b, op := "+",
               label := "" }

/-- `Value.__mul__` on two existing nodes. -/
def mulV (s : State) (a b : NodeId) : State × NodeId :=
  pushNode s { data := dataOf s a * dataOf s b, grad := 0,
               prev := List.dedup [a, b], bop := .mul a b, op := "*",
               label := "" }

/-- `Value.__pow__` with an integer exponent (the notebook only ever uses
integer exponents; the `isinstance` assertion is modelled separately by
`powAssertOK`): forward `self.data ** other`, children `(self,)`. -/
def powV (s : State) (a : NodeId) (p : ℤ) : State × NodeId :=
  pushNode s { data := dataOf s a ^ p, grad := 0, prev := [a],
               bop := .powi a p, op := "**" ++ toString p, label := "" }

/-- `Value.tanh`: `t = (exp(2x) - 1)/(exp(2x) + 1)`; the closure captures `t`. -/
def tanhV (E : ℚ → ℚ) (s : State) (a : NodeId) : State × NodeId :=
  let x := dataOf s a
  let t := (E (2 * x) - 1) / (E (2 * x) + 1)
  pushNode s { data := t, grad := 0, prev := [a], bop := .tanhOp a t,
               op := "tanh", label := "" }

/-- `Value.exp`: forward `math.exp(self.data)`; the closure reads `out.data`. -/
def expV (E : ℚ → ℚ) (s : State) (a : NodeId) : State × NodeId :=
  pushNode s { data := E (dataOf s a), grad := 0, prev := [a],
               bop := .expOp a, op := "exp", label := "" }

/-- `Value.__neg__`: `self * -1` — the literal `-1` is wrapped into a fresh
anonymous leaf by `__mul__`. -/
def negV (s : State) (a : NodeId) : State × NodeId :=
  let p := leafV s (-1) ""
  mulV p.1 a p.2

/-- `Value.__sub__` on two existing nodes: `self + (-other)`. -/
def subV (s : State) (a b : NodeId) : State × NodeId :=
  let p := negV s b
  addV p.1 a p.2

/-- `Value.__truediv__` on two existing nodes: `self * other**-1`. -/
def divV (s : State) (a b : NodeId) : State × NodeId :=
  let p := powV s b (-1)
  mulV p.1 a p.2

/-- The operand ids the `_backward` closure of a node writes into. -/
def slots : BOp → List NodeId
  | .leaf => []
  | .add a b => [a, b]
  | .mul a b => [a, b]
  | .powi a _ => [a]
  | .tanhOp a _ => [a]
  | .expOp a => [a]

/-- Run node `w`'s `_backward` closure, line by line, each line reading the
current state exactly as the Python closure reads the live objects. -/
def runBack (s : State) (w : NodeId) : State :=
  match bopOf s w with
  | .leaf => s
  | .add a b =>
      let s1 := addGrad s a (1 * gradOf s w)
      addGrad s1 b (1 * gradOf s1 w)
  | .mul a b =>
      let s1 := addGrad s a (dataOf s b * gradOf s w)
      addGrad s1 b (dataOf s1 a * gradOf s1 w)
  | .powi a p =>
      addGrad s a ((p : ℚ) * dataOf s a ^ (p - 1) * gradOf s w)
  | .tanhOp a t =>
      addGrad s a ((1 - t ^ 2) * gradOf s w)
  | .expOp a =>
      addGrad s a (dataOf s w * gradOf s w)

/-- `build_topo`, generalised over the order `ord v` in which the loop
`for child in v._prev` enumerates the operand set of `v` (a Python `set`
iterates in an unspecified order).  `ord := prevOf s` is the canonical
instance.  The accumulator is `(visited, topo)`; fuel only serves
termination and never runs out on well-formed graphs (operand ids are
strictly smaller than the node's id). -/
def buildTopoO (ord : NodeId → List NodeId) :
    Nat → NodeId → List NodeId × List NodeId → List NodeId × List NodeId
  | 0, _, acc => acc
  | fuel + 1, v, acc =>
      if v ∈ acc.1 then acc
      else
        let acc1 := (ord v).foldl (fun a c => buildTopoO ord fuel c a)
                      (v :: acc.1, acc.2)
        (acc1.1, acc1.2 ++ [v])

/-- The topological order `Value.backward` computes for terminal `r`,
under enumeration order `ord`. -/
def topoOf (ord : NodeId → List NodeId) (r : NodeId) : List NodeId :=
  (buildTopoO ord (r + 1) r ([], [])).2

/-- `Value.backward` under enumeration order `ord`: build the topological
order, seed `self.grad = 1.0`, then run each node's `_backward` in reverse
topological order. -/
def backwardO (ord : NodeId → List NodeId) (s : State) (r : NodeId) : State :=
  let topo := topoOf ord r
  let s1 := setGrad s r 1
  (topo.reverse).foldl runBack s1

/-- `Value.backward` with the canonical operand enumeration order. -/
def backward (s : State) (r : NodeId) : State := backwardO (prevOf s) s r

/-- Structural well-formedness: every operand id of an allocated node is an
earlier allocation.  Every heap built by the constructors above satisfies
this; it is what makes the operand relation acyclic. -/
def WFb (s : State) : Bool :=
  (List.range s.length).all fun i => (prevOf s i).all fun c => c < i

/-- The backward closure of each node writes only into its recorded
operands: the `slots` of its `bop` are among its `prev` entries.  True of
every node the constructors build. -/
def BopWFb (s : State) : Bool :=
  (List.range s.length).all fun i =>
    (slots (bopOf s i)).all fun c => c ∈ prevOf s i

/-- Reachability through edges given by `ord` (`v` reaches itself). -/
inductive ReachO (ord : NodeId → List NodeId) : NodeId → NodeId → Prop
  | refl (v : NodeId) : ReachO ord v v
  | step {v c x : NodeId} : c ∈ ord v → ReachO ord c x → ReachO ord v x

/-- Reachability from `v` through operand edges (`v` reaches itself). -/
def Reach (s : State) : NodeId → NodeId → Prop := ReachO (prevOf s)

/-- The gradient increments node `w`'s `_backward` closure performs, as
`(target, coefficient)` pairs; the actual increment is the coefficient
times `w.grad` at invocation time. -/
def incs (s : State) (w : NodeId) : List (NodeId × ℚ) :=
  match bopOf s w with
  | .leaf => []
  | .add a b => [(a, 1), (b, 1)]
  | .mul a b => [(a, dataOf s b), (b, dataOf s a)]
  | .powi a p => [(a, (p : ℚ) * dataOf s a ^ (p - 1))]
  | .tanhOp a t => [(a, 1 - t ^ 2)]
  | .expOp a => [(a, dataOf s w)]

/-- Apply a list of gradient increments scaled by `g`. -/
def applyIncs (t : State) (l : List (NodeId × ℚ)) (g : ℚ) : State :=
  l.foldl (fun t2 p => addGrad t2 p.1 (p.2 * g)) t

/-- `t` agrees with `s` on everything a backward pass reads except
gradients: length, closures and forward values. -/
def Agree (t s : State) : Prop :=
  t.length = s.length ∧ ∀ v, bopOf t v = bopOf s v ∧ dataOf t v = dataOf s v

/-- The invariant `build_topo` maintains on its `(visited, topo)`
accumulator: the topo list has no duplicates, is contained in the visited
set, is closed under operand edges and under reachability, and lists no
node before one of its operands. -/
def InvTopo (ord : NodeId → List NodeId) (V T : List NodeId) : Prop :=
  T.Nodup ∧ (∀ x ∈ T, x ∈ V) ∧ (∀ x ∈ T, ∀ c ∈ ord x, c ∈ T) ∧
  T.Pairwise (fun x y => y ∉ ord x) ∧
  (∀ x ∈ T, ∀ y, ReachO ord x y → y ∈ T)

/-! ## Python-level dispatch of the arithmetic operators

A binary operator applied to a `Value` and a raw numeric literal goes
through Python's dispatch: `Value.__add__`/`__mul__` wrap the literal
(`other = other if isinstance(other, Value) else Value(other)`), and
`Value.__radd__`/`__rmul__` handle the literal-on-the-left case.  The class
defines NO `__rsub__` and NO `__rtruediv__`, so `literal - value` and
`literal / value` fall through to a `TypeError`. -/

/-- A Python value appearing as an operand: a `Value` object or a raw
numeric literal. -/
inductive PyVal where
  | node (v : NodeId) : PyVal
  | num (q : ℚ) : PyVal
  deriving Repr, DecidableEq

/-- `a + b` at the Python level. -/
def pyAdd (s : State) : PyVal → PyVal → Except String (State × NodeId)
  | .node a, .node b => .ok (addV s a b)
  | .node a, .num k =>
      let p := leafV s k ""
      .ok (addV p.1 a p.2)
  | .num k, .node b =>
      let p := leafV s k ""
      .ok (addV p.1 b p.2)
  | .num _, .num _ => .error "not a Value operation"

/-- `a * b` at the Python level (`__rmul__` returns `self * other`). -/
def pyMul (s : State) : PyVal → PyVal → Except String (State × NodeId)
  | .node a, .node b => .ok (mulV s a b)
  | .node a, .num k =>
      let p := leafV s k ""
      .ok (mulV p.1 a p.2)
  | .num k, .node b =>
      let p := leafV s k ""
      .ok (mulV p.1 b p.2)
  | .num _, .num _ => .error "not a Value operation"

/-- `a - b` at the Python level.  With a literal on the right, `__sub__`
computes `self + (-other)` where `-other` is plain float negation, so the
literal is wrapped already negated and no intermediate node is built.  With
a literal on the left there is no `__rsub__`: `TypeError`. -/
def pySub (s : State) : PyVal → PyVal → Except String (State × NodeId)
  | .node a, .node b => .ok (subV s a b)
  | .node a, .num k =>
      let p := leafV s (-k) ""
      .ok (addV p.1 a p.2)
  | .num _, .node _ =>
      .error "TypeError: unsupported operand types for -"
  | .num _, .num _ => .error "not a Value operation"

/-- `a / b` at the Python level.  With a literal on the right,
`__truediv__` computes `self * other**-1` where `other**-1` is plain float
arithmetic, so the literal's reciprocal is wrapped.  With a literal on the
left there is no `__rtruediv__`: `TypeError`. -/
def pyDiv (s : State) : PyVal → PyVal → Except String (State × NodeId)
  | .node a, .node b => .ok (divV s a b)
  | .node a, .num k =>
      let p := leafV s k⁻¹ ""
      .ok (mulV p.1 a p.2)
  | .num _, .node _ =>
      .error "TypeError: unsupported operand types for /"
  | .num _, .num _ => .error "not a Value operation"

/-! ## The `__pow__` argument check

`Value.__pow__` begins with `assert isinstance(other, (int, float))`.  The
possible dynamic arguments are modelled by `PyNum`; note that Python's
`nan` and the infinities ARE instances of `float`. -/

/-- A Python float: a finite value, or one of the special values, which are
still instances of `float`. -/
inductive PyFloat where
  | finite (q : ℚ) : PyFloat
  | nan : PyFloat
  | inf : PyFloat
  | ninf : PyFloat
  deriving Repr, DecidableEq

/-- A dynamic argument passed as the exponent to `__pow__`. -/
inductive PyNum where
  | int (z : ℤ) : PyNum
  | float (f : PyFloat) : PyNum
  | nonnum : PyNum
  deriving Repr, DecidableEq

/-- The assertion `isinstance(other, (int, float))` guarding `__pow__`:
`True` exactly when the argument is an `int` or `float` instance. -/
def powAssertOK : PyNum → Bool
  | .int _ => true
  | .float _ => true
  | .nonnum => false

/-- Modelled from the spec: "a finite real number" — the condition the spec
says the exponent check enforces. -/
def specFiniteExponent : PyNum → Bool
  | .int _ => true
  | .float (.finite _) => true
  | _ => false

/-! ## The parametric unit layer (Neuron / Layer / MLP)

Random initial parameter values are an injected stream `g : Nat -> Q`
consumed positionally; `k` is the next unread position. -/

/-- The node ids a `Neuron` holds: weight leaves and the bias leaf. -/
structure NeuronS where
  w : List NodeId
  b : NodeId
  deriving Repr, DecidableEq

/-- `Neuron.__init__`: allocate `nin` weight leaves then the bias leaf,
drawing initial values from the stream. -/
def neuronInit (s : State) (g : ℕ → ℚ) (k nin : ℕ) :
    State × NeuronS × ℕ :=
  let ws := (List.range nin).foldl
    (fun (acc : State × List NodeId × ℕ) _ =>
      let p := leafV acc.1 (g acc.2.2) ""
      (p.1, acc.2.1 ++ [p.2], acc.2.2 + 1))
    (s, [], k)
  let pb := leafV ws.1 (g ws.2.2) ""
  (pb.1, ⟨ws.2.1, pb.2⟩, ws.2.2 + 1)

/-- `Neuron.parameters`: `self.w + [self.b]`. -/
def neuronParams (n : NeuronS) : List NodeId := n.w ++ [n.b]

/-- A layer input at the Python level: the first layer receives raw
numbers, later layers receive `Value` objects. -/
abbrev LIn := List PyVal

/-- A layer output at the Python level: `outs[0] if len(outs) == 1 else
outs`. -/
inductive LOut where
  | one (v : NodeId) : LOut
  | many (vs : List NodeId) : LOut
  deriving Repr, DecidableEq

/-- `wi * xi` inside a neuron evaluation: node times node, or node times
raw literal (wrapped by `__mul__`). -/
def wxMul (s : State) (wi : NodeId) (xi : PyVal) : State × NodeId :=
  match xi with
  | .node x => mulV s wi x
  | .num q =>
      let p := leafV s q ""
      mulV p.1 wi p.2

/-- `Neuron.__call__`: `act = sum((wi*xi for wi, xi in zip(self.w, x)),
self.b)` — a left fold of `+` starting from the bias — then `act.tanh()`. -/
def neuronCall (E : ℚ → ℚ) (s : State) (n : NeuronS) (x : LIn) :
    State × NodeId :=
  let act := (n.w.zip x).foldl
    (fun (acc : State × NodeId) wx =>
      let p := wxMul acc.1 wx.1 wx.2
      addV p.1 acc.2 p.2)
    (s, n.b)
  tanhV E act.1 act.2

/-- `Layer.__init__`. -/
def layerInit (s : State) (g : ℕ → ℚ) (k nin nout : ℕ) :
    State × List NeuronS × ℕ :=
  (List.range nout).foldl
    (fun (acc : State × List NeuronS × ℕ) _ =>
      let p := neuronInit acc.1 g acc.2.2 nin
      (p.1, acc.2.1 ++ [p.2.1], p.2.2))
    (s, [], k)

/-- `Layer.__call__`: evaluate every neuron on the same input, returning
the single node directly when the layer holds exactly one neuron. -/
def layerCall (E : ℚ → ℚ) (s : State) (ns : List NeuronS) (x : LIn) :
    State × LOut :=
  let outs := ns.foldl
    (fun (acc : State × List NodeId) n =>
      let p := neuronCall E acc.1 n x
      (p.1, acc.2 ++ [p.2]))
    (s, [])
  match outs.2 with
  | [v] => (outs.1, .one v)
  | vs => (outs.1, .many vs)

/-- `Layer.parameters`. -/
def layerParams (ns : List NeuronS) : List NodeId :=
  ns.flatMap neuronParams

/-- `MLP.__init__`: `sz = [nin] + nouts`; one layer per adjacent pair. -/
def mlpInit (s : State) (g : ℕ → ℚ) (nin : ℕ) (nouts : List ℕ) :
    State × List (List NeuronS) :=
  let sz := nin :: nouts
  let r := (List.range nouts.length).foldl
    (fun (acc : State × List (List NeuronS) × ℕ) i =>
      let p := layerInit acc.1 g acc.2.2 (sz.getD i 0) (sz.getD (i + 1) 0)
      (p.1, acc.2.1 ++ [p.2.1], p.2.2))
    (s, [], 0)
  (r.1, r.2.1)

/-- `MLP.__call__`: thread the input through the layers; a single-node
output of a middle layer is not iterable in `zip`, which would be a
`TypeError`. -/
def mlpCall (E : ℚ → ℚ) (s : State) (ls : List (List NeuronS)) (x : LIn) :
    Except String (State × LOut) :=
  match ls with
  | [] => .error "empty MLP"
  | [l] => .ok (layerCall E s l x)
  | l :: rest =>
      match layerCall E s l x with
      | (s1, .many vs) => mlpCall E s1 rest (vs.map PyVal.node)
      | (_, .one _) => .error "TypeError: Value object is not iterable"

/-- `MLP.parameters`. -/
def mlpParams (ls : List (List NeuronS)) : List NodeId :=
  ls.flatMap layerParams

/-! ## Concrete expression graphs used in the claims -/

/-- Did the call return a single node (not a sequence)? -/
def isOneOut : Except String (State × LOut) → Bool
  | .ok (_, .one _) => true
  | _ => false

/-- The diamond graph `c = a*a + a` over a single leaf `a` holding `x`:
ids `a = 0`, `a*a = 1`, `c = 2`. -/
def diamondC (x : ℚ) : State × NodeId :=
  let p0 := leafV [] x "a"
  let p1 := mulV p0.1 p0.2 p0.2
  addV p1.1 p1.2 p0.2

/-- The chain `a = 2`, `b = a*a`, `c = b*b`: ids `0, 1, 2`. -/
def chainS : State :=
  (mulV (mulV (leafV [] 2 "a").1 0 0).1 1 1).1

/-- `a * a` over a single leaf `a = 1`: node id `1`, operand id `0`. -/
def mulSelfP : State × NodeId := mulV (leafV [] 1 "a").1 0 0

/-- A heap holding one leaf node `a = 3` with id `0`. -/
def oneLeafS : State := (leafV [] 3 "a").1

/-- Two leaves `a = x` (id 0), `b = y` (id 1). -/
def twoLeafS (x y : ℚ) : State :=
  (leafV (leafV [] x "a").1 y "b").1

/-- `a - b` over two fresh leaves, and the backward pass over it. -/
def subEx (x y : ℚ) : State × NodeId := subV (twoLeafS x y) 0 1

/-- `a / b` over two fresh leaves. -/
def divEx (x y : ℚ) : State × NodeId := divV (twoLeafS x y) 0 1

/-- `-a` over one fresh leaf. -/
def negEx (x : ℚ) : State × NodeId := negV (leafV [] x "a").1 0

/-- What one `build_topo(v)` call guarantees: the topo list grows by a
suffix, the invariant is maintained, the visited set is the old one plus
the new topo entries, newly listed nodes were unvisited, `v` is listed, and
every new entry is reachable from `v`. -/
def MasterOut (ord : NodeId → List NodeId) (v : NodeId)
    (V T V2 T2 : List NodeId) : Prop :=
  (∃ D, T2 = T ++ D) ∧ InvTopo ord V2 T2 ∧
  (∀ x, x ∈ V2 ↔ (x ∈ V ∨ x ∈ T2)) ∧
  (∀ x ∈ T2, x ∈ T ∨ x ∉ V) ∧
  v ∈ T2 ∧
  (∀ x ∈ T2, x ∈ T ∨ ReachO ord v x)

/-! ## Allocator lemmas -/

theorem nodeOf_push_self (s : State) (n : Node) :
    nodeOf (s ++ [n]) s.length = n := by
  simp [nodeOf, List.getD, List.getElem?_concat_length]

theorem nodeOf_push_lt (s : State) (n : Node) (v : NodeId)
    (h : v < s.length) : nodeOf (s ++ [n]) v = nodeOf s v := by
  simp [nodeOf, List.getD, List.getElem?_append_left h]

theorem dataOf_addV (s : State) (a b : NodeId) :
    dataOf (addV s a b).1 (addV s a b).2 = dataOf s a + dataOf s b := by
  simp [addV, pushNode, dataOf, nodeOf_push_self]

theorem prevOf_addV (s : State) (a b : NodeId) :
    prevOf (addV s a b).1 (addV s a b).2 = List.dedup [a, b] := by
  simp [addV, pushNode, prevOf, nodeOf_push_self]

theorem dataOf_mulV (s : State) (a b : NodeId) :
    dataOf (mulV s a b).1 (mulV s a b).2 = dataOf s a * dataOf s b := by
  simp [mulV, pushNode, dataOf, nodeOf_push_self]

theorem prevOf_mulV (s : State) (a b : NodeId) :
    prevOf (mulV s a b).1 (mulV s a b).2 = List.dedup [a, b] := by
  simp [mulV, pushNode, prevOf, nodeOf_push_self]

theorem dataOf_powV (s : State) (a : NodeId) (p : ℤ) :
    dataOf (powV s a p).1 (powV s a p).2 = dataOf s a ^ p := by
  simp [powV, pushNode, dataOf, nodeOf_push_self]

theorem prevOf_powV (s : State) (a : NodeId) (p : ℤ) :
    prevOf (powV s a p).1 (powV s a p).2 = [a] := by
  simp [powV, pushNode, prevOf, nodeOf_push_self]

theorem prevOf_tanhV (E : ℚ → ℚ) (s : State) (a : NodeId) :
    prevOf (tanhV E s a).1 (tanhV E s a).2 = [a] := by
  simp [tanhV, pushNode, prevOf, nodeOf_push_self]

theorem prevOf_expV (E : ℚ → ℚ) (s : State) (a : NodeId) :
    prevOf (expV E s a).1 (expV E s a).2 = [a] := by
  simp [expV, pushNode, prevOf, nodeOf_push_self]

theorem nodeOf_leafV (s : State) (d : ℚ) (lab : String) :
    nodeOf (leafV s d lab).1 (leafV s d lab).2 =
      { data := d, grad := 0, prev := [], bop := .leaf, op := "",
        label := lab } := by
  simp [leafV, pushNode, nodeOf_push_self]

theorem nodeOf_append_lt (s t : State) (v : NodeId) (h : v < s.length) :
    nodeOf (s ++ t) v = nodeOf s v := by
  simp [nodeOf, List.getD, List.getElem?_append_left h]

theorem dataOf_leafV_self (s : State) (d : ℚ) (lab : String) :
    dataOf (leafV s d lab).1 (leafV s d lab).2 = d := by
  simp [dataOf, nodeOf_leafV]

theorem dataOf_negV (s : State) (a : NodeId) (ha : a < s.length) :
    dataOf (negV s a).1 (negV s a).2 = -(dataOf s a) := by
  have h1 : dataOf (leafV s (-1) "").1 a = dataOf s a := by
    simp [leafV, pushNode, dataOf, nodeOf_append_lt _ _ _ ha]
  simp [negV, dataOf_mulV, h1, dataOf_leafV_self]

theorem dataOf_subV (s : State) (a b : NodeId) (ha : a < s.length)
    (hb : b < s.length) :
    dataOf (subV s a b).1 (subV s a b).2 = dataOf s a - dataOf s b := by
  have h1 : dataOf (negV s b).1 a = dataOf s a := by
    simp only [negV, mulV, leafV, pushNode, dataOf]
    rw [List.append_assoc]
    exact congrArg Node.data (nodeOf_append_lt s _ a ha)
  have h2 : dataOf (negV s b).1 (negV s b).2 = -(dataOf s b) :=
    dataOf_negV s b hb
  simp [subV, dataOf_addV, h1, h2]
  ring

theorem dataOf_divV (s : State) (a b : NodeId) (ha : a < s.length)
    (hb : b < s.length) :
    dataOf (divV s a b).1 (divV s a b).2 = dataOf s a / dataOf s b := by
  have h1 : dataOf (powV s b (-1)).1 a = dataOf s a := by
    simp [powV, pushNode, dataOf, nodeOf_append_lt _ _ _ ha]
  have h2 : dataOf (powV s b (-1)).1 (powV s b (-1)).2 =
      (dataOf s b) ^ (-1 : ℤ) := dataOf_powV s b (-1)
  simp [divV, dataOf_mulV, h1, h2, zpow_neg_one, div_eq_mul_inv]

/-! ## Claim theorems (first group) -/

/-- C2: for a leaf node `a` holding any value `x` with zero gradient,
building `c = add(multiply(a, a), a)` and calling `backpropagate(c)` yields
`a.gradient = 2 * a.value + 1`: the node reached via both paths accumulates
the contribution of each path rather than being overwritten. -/
theorem c2_diamond_accumulation (x : ℚ) :
    gradOf (backward (diamondC x).1 (diamondC x).2) 0 =
      2 * dataOf (diamondC x).1 0 + 1 ∧
    dataOf (diamondC x).1 0 = x := by
  refine ⟨?_, ?_⟩
  · simp [diamondC, leafV, mulV, addV, pushNode, backward, backwardO,
      topoOf, buildTopoO, setGrad, addGrad, runBack, nodeOf, dataOf, gradOf,
      prevOf, bopOf, List.dedup]
    ring
  · simp [diamondC, leafV, mulV, addV, pushNode, nodeOf, dataOf,
      List.dedup]

/-- C3 counterexample: on the chain `a = 2`, `b = a*a`, `c = b*b`, a single
`backpropagate(c)` gives `a.grad = 32`, but a second call on the same
terminal gives `a.grad = 96`, not the doubled `64`: the second pass
propagates the already-accumulated intermediate gradients, so a node two
operand levels below the terminal triples instead of doubling. -/
theorem c3_backward_twice_not_double :
    gradOf (backward chainS 2) 0 = 32 ∧
    gradOf (backward (backward chainS 2) 2) 0 = 96 ∧
    gradOf (backward (backward chainS 2) 2) 0 ≠
      2 * gradOf (backward chainS 2) 0 := by
  refine ⟨?_, ?_, ?_⟩ <;>
    norm_num [chainS, leafV, mulV, addV, pushNode, backward, backwardO,
      topoOf, buildTopoO, setGrad, addGrad, runBack, nodeOf, dataOf, gradOf,
      prevOf, bopOf, List.dedup]

/-- C4 counterexample: `multiply(a, a)` produces a node whose operand
collection holds `a` once, not twice — `set((self, other))` deduplicates
the pair — so the operand sequence of `a * a` has length 1, not 2. -/
theorem c4_mul_self_single_operand :
    prevOf mulSelfP.1 mulSelfP.2 = [0] ∧
    (prevOf mulSelfP.1 mulSelfP.2).count 0 = 1 ∧
    (prevOf mulSelfP.1 mulSelfP.2).length ≠ 2 := by
  exact ⟨rfl, rfl, by decide⟩

/-- C4 amended: each binary engine operation records as operands the
identity-keyed set of its two inputs (the deduplication `set((self,
other))` performs): both inputs are members, there are no duplicates, and
applying an operation to the same node twice yields a single operand
entry; unary operations (`power`, `exp`, `tanh`) record exactly `[a]`. -/
theorem c4_operands_deduplicated (s : State) (a b : NodeId) (p : ℤ)
    (E : ℚ → ℚ) :
    prevOf (addV s a b).1 (addV s a b).2 = List.dedup [a, b] ∧
    prevOf (mulV s a b).1 (mulV s a b).2 = List.dedup [a, b] ∧
    a ∈ List.dedup [a, b] ∧ b ∈ List.dedup [a, b] ∧
    (List.dedup [a, b]).Nodup ∧
    (∀ x ∈ List.dedup [a, b], x = a ∨ x = b) ∧
    prevOf (mulV s a a).1 (mulV s a a).2 = [a] ∧
    prevOf (addV s a a).1 (addV s a a).2 = [a] ∧
    prevOf (powV s a p).1 (powV s a p).2 = [a] ∧
    prevOf (tanhV E s a).1 (tanhV E s a).2 = [a] ∧
    prevOf (expV E s a).1 (expV E s a).2 = [a] := by
  refine ⟨prevOf_addV s a b, prevOf_mulV s a b, ?_, ?_, List.nodup_dedup _,
    ?_, ?_, ?_, prevOf_powV s a p, prevOf_tanhV E s a, prevOf_expV E s a⟩
  · simp
  · simp
  · intro x hx
    simpa using List.mem_dedup.mp hx
  · simp [prevOf_mulV]
  · simp [prevOf_addV]

/-- C5 counterexample: the exponent check in `power` is
`assert isinstance(other, (int, float))`; Python's `nan` is an instance of
`float`, so `power(a, nan)` passes the check and does not fail, although
`nan` is not a finite real number — refuting "fails if and only if the
exponent is not a finite real number". -/
theorem c5_nan_exponent_passes_check :
    powAssertOK (.float .nan) = true ∧
    specFiniteExponent (.float .nan) = false := by
  constructor <;> rfl

/-- C5 amended: `power` fails with the assertion error if and only if the
exponent is not an `int`/`float` instance (a type check, not a finiteness
check — non-finite float exponents such as `nan` are accepted); for a
finite (integer) exponent it succeeds and returns a node whose value is
`a.value ** p` with `a` as its sole operand. -/
theorem c5_pow_check_is_instance_check :
    (∀ p : PyNum, powAssertOK p = false ↔ p = .nonnum) ∧
    (∀ (s : State) (a : NodeId) (z : ℤ),
      dataOf (powV s a z).1 (powV s a z).2 = dataOf s a ^ z ∧
      prevOf (powV s a z).1 (powV s a z).2 = [a]) := by
  constructor
  · intro p; cases p <;> simp [powAssertOK]
  · intro s a z; exact ⟨dataOf_powV s a z, prevOf_powV s a z⟩

/-- C6 counterexample: the class defines no `__rsub__` and no
`__rtruediv__`, so `literal - node` and `literal / node` are not
well-formed: they raise `TypeError` instead of wrapping the literal. -/
theorem c6_literal_left_sub_div_raise :
    pySub oneLeafS (.num 5) (.node 0) =
      .error "TypeError: unsupported operand types for -" ∧
    pyDiv oneLeafS (.num 5) (.node 0) =
      .error "TypeError: unsupported operand types for /" :=
  ⟨rfl, rfl⟩

/-- C6 amended: `add` and `multiply` accept a node combined with a raw
literal in either argument position (via `__radd__`/`__rmul__`), wrapping
the literal into an anonymous leaf with empty operands; `subtract` and
`divide` accept a literal only on the right (where `__sub__` folds the
negation into the wrapped literal and `__truediv__` wraps its reciprocal);
with the literal on the left they raise `TypeError`, since no `__rsub__` or
`__rtruediv__` is defined. -/
theorem c6_literal_dispatch (s : State) (a : NodeId) (k : ℚ)
    (ha : a < s.length) :
    pyAdd s (.num k) (.node a) = pyAdd s (.node a) (.num k) ∧
    pyMul s (.num k) (.node a) = pyMul s (.node a) (.num k) ∧
    (∃ s1 o, pyAdd s (.node a) (.num k) = .ok (s1, o) ∧
      dataOf s1 o = dataOf s a + k ∧ dataOf s1 s.length = k ∧
      prevOf s1 s.length = [] ∧ bopOf s1 s.length = .leaf ∧
      s.length ∈ prevOf s1 o) ∧
    (∃ s1 o, pyMul s (.node a) (.num k) = .ok (s1, o) ∧
      dataOf s1 o = dataOf s a * k ∧ dataOf s1 s.length = k) ∧
    (∃ s1 o, pySub s (.node a) (.num k) = .ok (s1, o) ∧
      dataOf s1 o = dataOf s a - k ∧ dataOf s1 s.length = -k) ∧
    (∃ s1 o, pyDiv s (.node a) (.num k) = .ok (s1, o) ∧
      dataOf s1 o = dataOf s a / k ∧ dataOf s1 s.length = k⁻¹) ∧
    (∃ e, pySub s (.num k) (.node a) = .error e) ∧
    (∃ e, pyDiv s (.num k) (.node a) = .error e) := by
  have hwrap : ∀ q : ℚ, dataOf (leafV s q "").1 a = dataOf s a := by
    intro q
    simp [leafV, pushNode, dataOf, nodeOf_append_lt _ _ _ ha]
  have hfresh : ∀ q : ℚ, (leafV s q "").2 = s.length := by
    intro q; simp [leafV, pushNode]
  have hself : ∀ q : ℚ, nodeOf (leafV s q "").1 s.length =
      { data := q, grad := 0, prev := [], bop := .leaf, op := "",
        label := "" } := by
    intro q; simpa [leafV, pushNode] using nodeOf_push_self s _
  refine ⟨rfl, rfl, ?_, ?_, ?_, ?_, ⟨_, rfl⟩, ⟨_, rfl⟩⟩
  · refine ⟨(addV (leafV s k "").1 a (leafV s k "").2).1,
      (addV (leafV s k "").1 a (leafV s k "").2).2, rfl, ?_, ?_, ?_, ?_, ?_⟩
    · rw [dataOf_addV, hwrap, hfresh]
      simp [dataOf, hself]
    · have hlt : s.length < (leafV s k "").1.length := by
        simp [leafV, pushNode]
      simp [addV, pushNode, dataOf, nodeOf_append_lt _ _ _ hlt, hself]
    · have hlt : s.length < (leafV s k "").1.length := by
        simp [leafV, pushNode]
      simp [addV, pushNode, prevOf, nodeOf_append_lt _ _ _ hlt, hself]
    · have hlt : s.length < (leafV s k "").1.length := by
        simp [leafV, pushNode]
      simp [addV, pushNode, bopOf, nodeOf_append_lt _ _ _ hlt, hself]
    · rw [prevOf_addV, hfresh]
      simp [List.mem_dedup]
  · refine ⟨(mulV (leafV s k "").1 a (leafV s k "").2).1,
      (mulV (leafV s k "").1 a (leafV s k "").2).2, rfl, ?_, ?_⟩
    · rw [dataOf_mulV, hwrap, hfresh]
      simp [dataOf, hself]
    · have hlt : s.length < (leafV s k "").1.length := by
        simp [leafV, pushNode]
      simp [mulV, pushNode, dataOf, nodeOf_append_lt _ _ _ hlt, hself]
  · refine ⟨(addV (leafV s (-k) "").1 a (leafV s (-k) "").2).1,
      (addV (leafV s (-k) "").1 a (leafV s (-k) "").2).2, rfl, ?_, ?_⟩
    · rw [dataOf_addV, hwrap, hfresh]
      simp [dataOf, hself]
      ring
    · have hlt : s.length < (leafV s (-k) "").1.length := by
        simp [leafV, pushNode]
      simp [addV, pushNode, dataOf, nodeOf_append_lt _ _ _ hlt, hself]
  · refine ⟨(mulV (leafV s k⁻¹ "").1 a (leafV s k⁻¹ "").2).1,
      (mulV (leafV s k⁻¹ "").1 a (leafV s k⁻¹ "").2).2, rfl, ?_, ?_⟩
    · rw [dataOf_mulV, hwrap, hfresh, div_eq_mul_inv]
      simp [dataOf, hself]
    · have hlt : s.length < (leafV s k⁻¹ "").1.length := by
        simp [leafV, pushNode]
      simp [mulV, pushNode, dataOf, nodeOf_append_lt _ _ _ hlt, hself]

/-- Witness for `c6_literal_dispatch` at the concrete one-leaf heap,
node `0`, literal `5`. -/
theorem c6_literal_dispatch_witness :
    0 < oneLeafS.length ∧
    (pyAdd oneLeafS (.num 5) (.node 0) = pyAdd oneLeafS (.node 0) (.num 5) ∧
    pyMul oneLeafS (.num 5) (.node 0) = pyMul oneLeafS (.node 0) (.num 5) ∧
    (∃ s1 o, pyAdd oneLeafS (.node 0) (.num 5) = .ok (s1, o) ∧
      dataOf s1 o = dataOf oneLeafS 0 + 5 ∧
      dataOf s1 oneLeafS.length = 5 ∧
      prevOf s1 oneLeafS.length = [] ∧ bopOf s1 oneLeafS.length = .leaf ∧
      oneLeafS.length ∈ prevOf s1 o) ∧
    (∃ s1 o, pyMul oneLeafS (.node 0) (.num 5) = .ok (s1, o) ∧
      dataOf s1 o = dataOf oneLeafS 0 * 5 ∧
      dataOf s1 oneLeafS.length = 5) ∧
    (∃ s1 o, pySub oneLeafS (.node 0) (.num 5) = .ok (s1, o) ∧
      dataOf s1 o = dataOf oneLeafS 0 - 5 ∧
      dataOf s1 oneLeafS.length = -5) ∧
    (∃ s1 o, pyDiv oneLeafS (.node 0) (.num 5) = .ok (s1, o) ∧
      dataOf s1 o = dataOf oneLeafS 0 / 5 ∧
      dataOf s1 oneLeafS.length = (5 : ℚ)⁻¹) ∧
    (∃ e, pySub oneLeafS (.num 5) (.node 0) = .error e) ∧
    (∃ e, pyDiv oneLeafS (.num 5) (.node 0) = .error e)) :=
  ⟨by decide, c6_literal_dispatch oneLeafS 0 5 (by decide)⟩

/-- C8: `negate` is `multiply(a, -1)` (with the wrapped `-1` leaf),
`subtract(a, b)` is `add(a, negate(b))`, and `divide(a, b)` is
`multiply(a, power(b, -1))` — definitionally, in forward value
(`-a.value`, `a.value - b.value`, `a.value / b.value`), and in the
gradients the inherited local rules propagate on the corresponding
minimal graphs. -/
theorem c8_derived_operations (s : State) (a b : NodeId) (x y : ℚ)
    (ha : a < s.length) (hb : b < s.length) :
    negV s a = (let p := leafV s (-1) ""; mulV p.1 a p.2) ∧
    subV s a b = (let p := negV s b; addV p.1 a p.2) ∧
    divV s a b = (let p := powV s b (-1); mulV p.1 a p.2) ∧
    dataOf (negV s a).1 (negV s a).2 = -(dataOf s a) ∧
    dataOf (subV s a b).1 (subV s a b).2 = dataOf s a - dataOf s b ∧
    dataOf (divV s a b).1 (divV s a b).2 = dataOf s a / dataOf s b ∧
    gradOf (backward (negEx x).1 (negEx x).2) 0 = -1 ∧
    gradOf (backward (subEx x y).1 (subEx x y).2) 0 = 1 ∧
    gradOf (backward (subEx x y).1 (subEx x y).2) 1 = -1 ∧
    gradOf (backward (divEx x y).1 (divEx x y).2) 0 = y⁻¹ ∧
    gradOf (backward (divEx x y).1 (divEx x y).2) 1 = -(x / y ^ 2) := by
  refine ⟨rfl, rfl, rfl, dataOf_negV s a ha, dataOf_subV s a b ha hb,
    dataOf_divV s a b ha hb, ?_, ?_, ?_, ?_, ?_⟩ <;>
    set_option maxHeartbeats 2000000 in
    simp [negEx, subEx, divEx, twoLeafS, negV, subV, divV, leafV, mulV,
      addV, powV, pushNode, backward, backwardO, topoOf, buildTopoO, setGrad,
      addGrad, runBack, nodeOf, dataOf, gradOf, prevOf, bopOf, List.dedup,
      zpow_neg, zpow_neg_one]
  rw [div_eq_mul_inv, mul_comm]
  norm_cast

/-- Witness for `c8_derived_operations` at the two-leaf heap `a = 3`,
`b = 4`, with `x = 3`, `y = 4`. -/
theorem c8_derived_operations_witness :
    0 < (twoLeafS 3 4).length ∧ 1 < (twoLeafS 3 4).length ∧
    dataOf (subV (twoLeafS 3 4) 0 1).1 (subV (twoLeafS 3 4) 0 1).2 =
      dataOf (twoLeafS 3 4) 0 - dataOf (twoLeafS 3 4) 1 ∧
    gradOf (backward (divEx 3 4).1 (divEx 3 4).2) 1 = -((3 : ℚ) / 4 ^ 2) :=
  ⟨by decide, by decide,
    (c8_derived_operations (twoLeafS 3 4) 0 1 3 4 (by decide)
      (by decide)).2.2.2.2.1,
    (c8_derived_operations (twoLeafS 3 4) 0 1 3 4 (by decide)
      (by decide)).2.2.2.2.2.2.2.2.2.2⟩

/-- C9: a 3-input, `[4, 4, 1]`-shaped `MLP`, evaluated on any ordered
sequence of 3 raw inputs, returns exactly one node (the single-neuron last
layer returns its node directly), and its `parameters()` is the flattened
sequence of every weight and bias leaf, of length
`3*4+4 + 4*4+4 + 4*1+1 = 41`. -/
theorem c9_mlp_shape (g : ℕ → ℚ) (E : ℚ → ℚ) (x1 x2 x3 : ℚ) :
    isOneOut (mlpCall E (mlpInit [] g 3 [4, 4, 1]).1
      (mlpInit [] g 3 [4, 4, 1]).2 [.num x1, .num x2, .num x3]) = true ∧
    (mlpParams (mlpInit [] g 3 [4, 4, 1]).2).length = 41 := by
  constructor
  · set_option maxHeartbeats 4000000 in rfl
  · set_option maxHeartbeats 4000000 in rfl

/-! ## Primitive update lemmas -/

theorem nodeOf_addGrad (s : State) (u : NodeId) (x : ℚ) (v : NodeId) :
    nodeOf (addGrad s u x) v =
      if u = v ∧ u < s.length then
        { nodeOf s u with grad := (nodeOf s u).grad + x }
      else nodeOf s v := by
  unfold addGrad nodeOf
  rcases Nat.decEq u v with h | h
  · simp [List.getD, List.getElem?_set, h]
  · subst h
    by_cases hlt : u < s.length
    · simp [List.getD, List.getElem?_set, hlt]
    · simp [List.getD, List.getElem?_set, hlt,
        List.getElem?_eq_none (Nat.le_of_not_lt hlt)]

theorem nodeOf_setGrad (s : State) (u : NodeId) (g : ℚ) (v : NodeId) :
    nodeOf (setGrad s u g) v =
      if u = v ∧ u < s.length then { nodeOf s u with grad := g }
      else nodeOf s v := by
  unfold setGrad nodeOf
  rcases Nat.decEq u v with h | h
  · simp [List.getD, List.getElem?_set, h]
  · subst h
    by_cases hlt : u < s.length
    · simp [List.getD, List.getElem?_set, hlt]
    · simp [List.getD, List.getElem?_set, hlt,
        List.getElem?_eq_none (Nat.le_of_not_lt hlt)]

theorem gradOf_addGrad (s : State) (u : NodeId) (x : ℚ) (v : NodeId) :
    gradOf (addGrad s u x) v =
      if u = v ∧ u < s.length then gradOf s v + x else gradOf s v := by
  simp only [gradOf, nodeOf_addGrad]
  split
  · next h => rw [h.1]
  · rfl

theorem gradOf_setGrad (s : State) (u : NodeId) (g : ℚ) (v : NodeId) :
    gradOf (setGrad s u g) v =
      if u = v ∧ u < s.length then g else gradOf s v := by
  simp only [gradOf, nodeOf_setGrad]
  split <;> rfl

theorem dataOf_addGrad (s : State) (u : NodeId) (x : ℚ) (v : NodeId) :
    dataOf (addGrad s u x) v = dataOf s v := by
  simp only [dataOf, nodeOf_addGrad]
  split
  · next h => rw [h.1]
  · rfl

theorem prevOf_addGrad (s : State) (u : NodeId) (x : ℚ) (v : NodeId) :
    prevOf (addGrad s u x) v = prevOf s v := by
  simp only [prevOf, nodeOf_addGrad]
  split
  · next h => rw [h.1]
  · rfl

theorem bopOf_addGrad (s : State) (u : NodeId) (x : ℚ) (v : NodeId) :
    bopOf (addGrad s u x) v = bopOf s v := by
  simp only [bopOf, nodeOf_addGrad]
  split
  · next h => rw [h.1]
  · rfl

theorem opOf_addGrad (s : State) (u : NodeId) (x : ℚ) (v : NodeId) :
    opOf (addGrad s u x) v = opOf s v := by
  simp only [opOf, nodeOf_addGrad]
  split
  · next h => rw [h.1]
  · rfl

theorem labelOf_addGrad (s : State) (u : NodeId) (x : ℚ) (v : NodeId) :
    labelOf (addGrad s u x) v = labelOf s v := by
  simp only [labelOf, nodeOf_addGrad]
  split
  · next h => rw [h.1]
  · rfl

theorem length_addGrad (s : State) (u : NodeId) (x : ℚ) :
    (addGrad s u x).length = s.length := by
  simp [addGrad]

theorem dataOf_setGrad (s : State) (u : NodeId) (g : ℚ) (v : NodeId) :
    dataOf (setGrad s u g) v = dataOf s v := by
  simp only [dataOf, nodeOf_setGrad]
  split
  · next h => rw [h.1]
  · rfl

theorem prevOf_setGrad (s : State) (u : NodeId) (g : ℚ) (v : NodeId) :
    prevOf (setGrad s u g) v = prevOf s v := by
  simp only [prevOf, nodeOf_setGrad]
  split
  · next h => rw [h.1]
  · rfl

theorem bopOf_setGrad (s : State) (u : NodeId) (g : ℚ) (v : NodeId) :
    bopOf (setGrad s u g) v = bopOf s v := by
  simp only [bopOf, nodeOf_setGrad]
  split
  · next h => rw [h.1]
  · rfl

theorem opOf_setGrad (s : State) (u : NodeId) (g : ℚ) (v : NodeId) :
    opOf (setGrad s u g) v = opOf s v := by
  simp only [opOf, nodeOf_setGrad]
  split
  · next h => rw [h.1]
  · rfl

theorem labelOf_setGrad (s : State) (u : NodeId) (g : ℚ) (v : NodeId) :
    labelOf (setGrad s u g) v = labelOf s v := by
  simp only [labelOf, nodeOf_setGrad]
  split
  · next h => rw [h.1]
  · rfl

theorem length_setGrad (s : State) (u : NodeId) (g : ℚ) :
    (setGrad s u g).length = s.length := by
  simp [setGrad]

/-! ## What `runBack` preserves and how it changes gradients -/

theorem bopOf_runBack (s : State) (w v : NodeId) :
    bopOf (runBack s w) v = bopOf s v := by
  unfold runBack
  cases h : bopOf s w <;> simp [bopOf_addGrad]

theorem dataOf_runBack (s : State) (w v : NodeId) :
    dataOf (runBack s w) v = dataOf s v := by
  unfold runBack
  cases h : bopOf s w <;> simp [dataOf_addGrad]

theorem prevOf_runBack (s : State) (w v : NodeId) :
    prevOf (runBack s w) v = prevOf s v := by
  unfold runBack
  cases h : bopOf s w <;> simp [prevOf_addGrad]

theorem opOf_runBack (s : State) (w v : NodeId) :
    opOf (runBack s w) v = opOf s v := by
  unfold runBack
  cases h : bopOf s w <;> simp [opOf_addGrad]

theorem labelOf_runBack (s : State) (w v : NodeId) :
    labelOf (runBack s w) v = labelOf s v := by
  unfold runBack
  cases h : bopOf s w <;> simp [labelOf_addGrad]

theorem length_runBack (s : State) (w : NodeId) :
    (runBack s w).length = s.length := by
  unfold runBack
  cases h : bopOf s w <;> simp [length_addGrad]

theorem gradOf_runBack_not_slot (s : State) (w v : NodeId)
    (h : v ∉ slots (bopOf s w)) : gradOf (runBack s w) v = gradOf s v := by
  unfold runBack
  cases hb : bopOf s w <;> simp [hb, slots] at h ⊢ <;>
    simp [gradOf_addGrad]
  case add a b => simp [Ne.symm h.1, Ne.symm h.2]
  case mul a b => simp [Ne.symm h.1, Ne.symm h.2]
  case powi a p => simp [Ne.symm h]
  case tanhOp a t => simp [Ne.symm h]
  case expOp a => simp [Ne.symm h]

/-- `runBack` is the application of the closure's increment list scaled by
`w.grad`, provided the node is not its own operand (always true on
well-formed graphs, where operands have strictly smaller ids). -/
theorem runBack_eq_applyIncs (s : State) (w : NodeId)
    (hw : w ∉ slots (bopOf s w)) :
    runBack s w = applyIncs s (incs s w) (gradOf s w) := by
  unfold runBack incs applyIncs
  cases hb : bopOf s w <;> simp [hb, slots] at hw ⊢
  case add a b =>
    rw [gradOf_addGrad]
    simp [Ne.symm hw.1]
  case mul a b =>
    rw [gradOf_addGrad, dataOf_addGrad]
    simp [Ne.symm hw.1]

/-! ## Agreement and commutation -/

theorem Agree.refl (s : State) : Agree s s := ⟨rfl, fun _ => ⟨rfl, rfl⟩⟩

theorem incs_congr (t s : State) (w : NodeId) (h : Agree t s) :
    incs t w = incs s w := by
  unfold incs
  rw [(h.2 w).1]
  cases bopOf s w <;> simp [(h.2 _).2]

theorem agree_addGrad (t s : State) (u : NodeId) (x : ℚ) (h : Agree t s) :
    Agree (addGrad t u x) s :=
  ⟨by rw [length_addGrad]; exact h.1,
   fun v => ⟨by rw [bopOf_addGrad]; exact (h.2 v).1,
             by rw [dataOf_addGrad]; exact (h.2 v).2⟩⟩

theorem agree_setGrad (t s : State) (u : NodeId) (g : ℚ) (h : Agree t s) :
    Agree (setGrad t u g) s :=
  ⟨by rw [length_setGrad]; exact h.1,
   fun v => ⟨by rw [bopOf_setGrad]; exact (h.2 v).1,
             by rw [dataOf_setGrad]; exact (h.2 v).2⟩⟩

theorem agree_runBack (t s : State) (w : NodeId) (h : Agree t s) :
    Agree (runBack t w) s :=
  ⟨by rw [length_runBack]; exact h.1,
   fun v => ⟨by rw [bopOf_runBack]; exact (h.2 v).1,
             by rw [dataOf_runBack]; exact (h.2 v).2⟩⟩

theorem agree_applyIncs (t s : State) (l : List (NodeId × ℚ)) (g : ℚ)
    (h : Agree t s) : Agree (applyIncs t l g) s := by
  induction l generalizing t with
  | nil => exact h
  | cons p l ih => exact ih _ (agree_addGrad t s p.1 (p.2 * g) h)

theorem getElem?_addGrad (s : State) (u : NodeId) (x : ℚ) (j : ℕ) :
    (addGrad s u x)[j]? =
      if u = j ∧ u < s.length then
        some { nodeOf s u with grad := (nodeOf s u).grad + x }
      else s[j]? := by
  unfold addGrad
  rw [List.getElem?_set]
  by_cases h : u = j
  · subst h
    by_cases hlt : u < s.length <;>
      simp [hlt, Nat.le_of_not_lt]
  · simp [h]

theorem addGrad_comm (s : State) (u1 u2 : NodeId) (x1 x2 : ℚ) :
    addGrad (addGrad s u1 x1) u2 x2 = addGrad (addGrad s u2 x2) u1 x1 := by
  by_cases h : u1 = u2
  · subst h
    apply List.ext_getElem?
    intro j
    simp only [getElem?_addGrad, length_addGrad, nodeOf_addGrad]
    by_cases hj : u1 = j ∧ u1 < s.length
    · obtain ⟨he, hlt⟩ := hj
      subst he
      simp [hlt, Node.mk.injEq]
      ring
    · simp [hj]
  · apply List.ext_getElem?
    intro j
    simp only [getElem?_addGrad, length_addGrad, nodeOf_addGrad]
    split_ifs <;> first | rfl | (exfalso; omega) | simp_all

theorem addGrad_applyIncs_comm (t : State) (l : List (NodeId × ℚ))
    (g : ℚ) (u : NodeId) (x : ℚ) :
    applyIncs (addGrad t u x) l g = addGrad (applyIncs t l g) u x := by
  induction l generalizing t with
  | nil => rfl
  | cons p l ih =>
      show applyIncs (addGrad (addGrad t u x) p.1 (p.2 * g)) l g = _
      rw [addGrad_comm, ih]
      rfl

theorem applyIncs_comm (t : State) (l1 l2 : List (NodeId × ℚ))
    (g1 g2 : ℚ) :
    applyIncs (applyIncs t l1 g1) l2 g2 =
      applyIncs (applyIncs t l2 g2) l1 g1 := by
  induction l1 generalizing t with
  | nil => rfl
  | cons p l ih =>
      show applyIncs (applyIncs (addGrad t p.1 (p.2 * g1)) l g1) l2 g2 = _
      rw [ih, addGrad_applyIncs_comm]
      rfl

theorem runBack_comm (t : State) (x y : NodeId)
    (hx : x ∉ slots (bopOf t x)) (hy : y ∉ slots (bopOf t y))
    (hxy : y ∉ slots (bopOf t x)) (hyx : x ∉ slots (bopOf t y)) :
    runBack (runBack t x) y = runBack (runBack t y) x := by
  have hbx : bopOf (runBack t y) x = bopOf t x := bopOf_runBack t y x
  have hby : bopOf (runBack t x) y = bopOf t y := bopOf_runBack t x y
  have e1 : runBack (runBack t x) y =
      applyIncs (runBack t x) (incs t y) (gradOf t y) := by
    rw [runBack_eq_applyIncs (runBack t x) y (by rw [hby]; exact hy),
        incs_congr _ t y (agree_runBack t t x (Agree.refl t)),
        gradOf_runBack_not_slot t x y hxy]
  have e2 : runBack (runBack t y) x =
      applyIncs (runBack t y) (incs t x) (gradOf t x) := by
    rw [runBack_eq_applyIncs (runBack t y) x (by rw [hbx]; exact hx),
        incs_congr _ t x (agree_runBack t t y (Agree.refl t)),
        gradOf_runBack_not_slot t y x hyx]
  rw [e1, e2, runBack_eq_applyIncs t x hx, runBack_eq_applyIncs t y hy]
  exact applyIncs_comm t (incs t x) (incs t y) (gradOf t x) (gradOf t y)

/-! ## Order independence of the backward fold -/

theorem foldl_runBack_bubble (s : State) (h : NodeId) (B : List NodeId) :
    ∀ (A : List NodeId) (t : State), Agree t s →
      (∀ a ∈ A, h ∉ slots (bopOf s a)) →
      (∀ a ∈ A, a ∉ slots (bopOf s h)) →
      (∀ a ∈ A, a ∉ slots (bopOf s a)) →
      h ∉ slots (bopOf s h) →
      List.foldl runBack t (A ++ h :: B) =
        List.foldl runBack (runBack t h) (A ++ B) := by
  intro A
  induction A with
  | nil => intro t _ _ _ _ _; rfl
  | cons a A ih =>
      intro t hag hha hah hself hh
      have hba : bopOf t a = bopOf s a := (hag.2 a).1
      have hbh : bopOf t h = bopOf s h := (hag.2 h).1
      have hcomm : runBack (runBack t a) h = runBack (runBack t h) a := by
        apply runBack_comm
        · rw [hba]; exact hself a (List.mem_cons_self a A)
        · rw [hbh]; exact hh
        · rw [hba]; exact hha a (List.mem_cons_self a A)
        · rw [hbh]; exact hah a (List.mem_cons_self a A)
      show List.foldl runBack (runBack t a) (A ++ h :: B) = _
      rw [ih (runBack t a) (agree_runBack t s a hag)
            (fun x hx => hha x (List.mem_cons_of_mem a hx))
            (fun x hx => hah x (List.mem_cons_of_mem a hx))
            (fun x hx => hself x (List.mem_cons_of_mem a hx)) hh,
          hcomm]
      rfl

theorem foldl_runBack_perm (s : State) :
    ∀ (P1 P2 : List NodeId) (t : State), Agree t s → P1.Perm P2 →
      P1.Nodup →
      P1.Pairwise (fun x y => x ∉ slots (bopOf s y)) →
      P2.Pairwise (fun x y => x ∉ slots (bopOf s y)) →
      (∀ w ∈ P1, w ∉ slots (bopOf s w)) →
      List.foldl runBack t P1 = List.foldl runBack t P2 := by
  intro P1
  induction P1 with
  | nil =>
      intro P2 t _ hp _ _ _ _
      rw [hp.symm.eq_nil]
  | cons h T1 ih =>
      intro P2 t hag hp hnd hpw1 hpw2 hself
      have hmem : h ∈ P2 := hp.mem_iff.mp (List.mem_cons_self h T1)
      obtain ⟨A, B, rfl⟩ := List.append_of_mem hmem
      have hnd2 : (A ++ h :: B).Nodup := hp.nodup hnd
      have hA : h ∉ A := by
        rcases List.nodup_append.mp hnd2 with ⟨_, _, hdisj⟩
        intro hcontra
        exact hdisj hcontra (List.mem_cons_self h B)
      have hmemT1 : ∀ a ∈ A, a ∈ T1 := by
        intro a haA
        have : a ∈ h :: T1 :=
          hp.mem_iff.mpr (List.mem_append.mpr (.inl haA))
        rcases List.mem_cons.mp this with he | ht
        · exact absurd (he ▸ haA) hA
        · exact ht
      have hcons := List.pairwise_cons.mp hpw1
      have happ := List.pairwise_append.mp hpw2
      have hbub := foldl_runBack_bubble s h B A t hag
        (fun a ha => hcons.1 a (hmemT1 a ha))
        (fun a ha => happ.2.2 a ha h (List.mem_cons_self h B))
        (fun a ha => hself a (List.mem_cons_of_mem h (hmemT1 a ha)))
        (hself h (List.mem_cons_self h T1))
      rw [hbub]
      show List.foldl runBack (runBack t h) T1 = _
      apply ih (A ++ B) (runBack t h) (agree_runBack t s h hag)
      · have h1 : (h :: T1).Perm (h :: (A ++ B)) :=
          hp.trans List.perm_middle
        exact h1.cons_inv
      · exact hnd.of_cons
      · exact hcons.2
      · exact List.Pairwise.sublist
          (List.Sublist.append_left (List.sublist_cons_self h B) A) hpw2
      · exact fun w hw => hself w (List.mem_cons_of_mem h hw)

/-! ## DFS topological sort: fuel irrelevance -/

theorem buildTopoO_succ (ord : NodeId → List NodeId) (fuel : ℕ)
    (v : NodeId) (acc : List NodeId × List NodeId) :
    buildTopoO ord (fuel + 1) v acc =
      if v ∈ acc.1 then acc
      else
        (((ord v).foldl (fun a c => buildTopoO ord fuel c a)
            (v :: acc.1, acc.2)).1,
         ((ord v).foldl (fun a c => buildTopoO ord fuel c a)
            (v :: acc.1, acc.2)).2 ++ [v]) := rfl

theorem buildTopoO_fuel (ord : NodeId → List NodeId)
    (hb : ∀ v, ∀ c ∈ ord v, c < v) :
    ∀ v f, v < f → ∀ acc, buildTopoO ord f v acc =
      buildTopoO ord (v + 1) v acc := by
  intro v
  induction v using Nat.strong_induction_on with
  | _ v ih =>
    intro f hf acc
    cases f with
    | zero => omega
    | succ f' =>
      rw [buildTopoO_succ, buildTopoO_succ]
      by_cases hv : v ∈ acc.1
      · simp [hv]
      · simp only [hv, if_false]
        have hfold : ∀ (l : List NodeId), (∀ c ∈ l, c < v) →
            ∀ (a : List NodeId × List NodeId),
            l.foldl (fun a c => buildTopoO ord f' c a) a =
              l.foldl (fun a c => buildTopoO ord v c a) a := by
          intro l hl
          induction l with
          | nil => intro a; rfl
          | cons c t iht =>
              intro a
              have hc : c < v := hl c (List.mem_cons_self c t)
              have h1 : buildTopoO ord f' c a =
                  buildTopoO ord (c + 1) c a :=
                ih c hc f' (Nat.lt_of_lt_of_le hc (Nat.le_of_lt_succ hf)) a
              have h2 : buildTopoO ord v c a =
                  buildTopoO ord (c + 1) c a :=
                ih c hc v hc a
              simp only [List.foldl_cons, h1, h2]
              exact iht (fun x hx => hl x (List.mem_cons_of_mem c hx)) _
        rw [hfold (ord v) (hb v) _]

theorem buildTopo_master (ord : NodeId → List NodeId)
    (hb : ∀ v, ∀ c ∈ ord v, c < v) :
    ∀ v (V T : List NodeId), InvTopo ord V T →
      (∀ g ∈ V, g ∉ T → v < g) →
      MasterOut ord v V T (buildTopoO ord (v + 1) v (V, T)).1
        (buildTopoO ord (v + 1) v (V, T)).2 := by
  intro v
  induction v using Nat.strong_induction_on with
  | _ v ih =>
    intro V T hInv hgray
    rw [buildTopoO_succ]
    by_cases hv : v ∈ (V, T).1
    · rw [if_pos hv]
      have hvT : v ∈ T := by
        by_contra hvT
        exact absurd (hgray v hv hvT) (lt_irrefl v)
      exact ⟨⟨[], by simp⟩, hInv,
        fun x => ⟨fun hx => .inl hx,
          fun hx => hx.elim id (fun hxT => hInv.2.1 x hxT)⟩,
        fun x hx => .inl hx, hvT, fun x hx => .inl hx⟩
    · rw [if_neg hv]
      have hvT : v ∉ T := fun h => hv (hInv.2.1 v h)
      have hfold : ∀ (l : List NodeId), (∀ c ∈ l, c < v) →
          ∀ (V' T' : List NodeId), InvTopo ord V' T' →
            (∀ g ∈ V', g ∉ T' → v ≤ g) →
            (∃ D, (l.foldl (fun a c => buildTopoO ord v c a) (V', T')).2 =
              T' ++ D) ∧
            InvTopo ord
              (l.foldl (fun a c => buildTopoO ord v c a) (V', T')).1
              (l.foldl (fun a c => buildTopoO ord v c a) (V', T')).2 ∧
            (∀ x, x ∈ (l.foldl (fun a c => buildTopoO ord v c a)
                (V', T')).1 ↔
              (x ∈ V' ∨ x ∈ (l.foldl (fun a c => buildTopoO ord v c a)
                (V', T')).2)) ∧
            (∀ x ∈ (l.foldl (fun a c => buildTopoO ord v c a)
                (V', T')).2, x ∈ T' ∨ x ∉ V') ∧
            (∀ c ∈ l, c ∈ (l.foldl (fun a c => buildTopoO ord v c a)
                (V', T')).1) ∧
            (∀ x ∈ (l.foldl (fun a c => buildTopoO ord v c a)
                (V', T')).2, x ∈ T' ∨ ∃ c ∈ l, ReachO ord c x) := by
        intro l
        induction l with
        | nil =>
            intro _ V' T' hI hg
            exact ⟨⟨[], by simp⟩, hI,
              fun x => ⟨fun hx => .inl hx,
                fun hx => hx.elim id (hI.2.1 x)⟩,
              fun x hx => .inl hx, by simp,
              fun x hx => .inl hx⟩
        | cons c t iht =>
            intro hl V' T' hI hg
            have hc : c < v := hl c (List.mem_cons_self c t)
            have hstep : buildTopoO ord v c (V', T') =
                buildTopoO ord (c + 1) c (V', T') :=
              buildTopoO_fuel ord hb c v hc _
            simp only [List.foldl_cons, hstep]
            obtain ⟨⟨D1, hD1⟩, hI1, hmem1, hnew1, hcT1, hreach1⟩ :=
              ih c hc V' T' hI
                (fun g hg' hgt => Nat.lt_of_lt_of_le hc (hg g hg' hgt))
            have hg1 : ∀ g ∈ (buildTopoO ord (c + 1) c (V', T')).1,
                g ∉ (buildTopoO ord (c + 1) c (V', T')).2 → v ≤ g := by
              intro g hgV hgT
              rcases (hmem1 g).1 hgV with h | h
              · refine hg g h (fun hT => hgT ?_)
                rw [hD1]
                exact List.mem_append_left _ hT
              · exact absurd h hgT
            obtain ⟨⟨D2, hD2⟩, hI2, hmem2, hnew2, hall2, hreach2⟩ :=
              iht (fun x hx => hl x (List.mem_cons_of_mem c hx))
                (buildTopoO ord (c + 1) c (V', T')).1
                (buildTopoO ord (c + 1) c (V', T')).2 hI1 hg1
            refine ⟨?_, hI2, ?_, ?_, ?_, ?_⟩
            · exact ⟨D1 ++ D2, by rw [hD2, hD1, List.append_assoc]⟩
            · intro x
              rw [hmem2 x]
              constructor
              · rintro (hx | hx)
                · rcases (hmem1 x).1 hx with h | h
                  · exact .inl h
                  · refine .inr ?_
                    rw [hD2]
                    exact List.mem_append_left _ h
                · exact .inr hx
              · rintro (hx | hx)
                · exact .inl ((hmem1 x).2 (.inl hx))
                · exact .inr hx
            · intro x hx
              rcases hnew2 x hx with h | h
              · exact hnew1 x h
              · exact .inr (fun hxV => h ((hmem1 x).2 (.inl hxV)))
            · intro c0 hc0
              rcases List.mem_cons.mp hc0 with rfl | h
              · exact (hmem2 c0).2 (.inl (hI1.2.1 c0 hcT1))
              · exact hall2 c0 h
            · intro x hx
              rcases hreach2 x hx with h | ⟨c', hc', hr⟩
              · rcases hreach1 x h with h' | h'
                · exact .inl h'
                · exact .inr ⟨c, List.mem_cons_self c t, h'⟩
              · exact .inr ⟨c', List.mem_cons_of_mem c hc', hr⟩
      have hIvV : InvTopo ord (v :: V) T :=
        ⟨hInv.1, fun x hx => List.mem_cons_of_mem v (hInv.2.1 x hx),
         hInv.2.2.1, hInv.2.2.2.1, hInv.2.2.2.2⟩
      have hgV : ∀ g ∈ v :: V, g ∉ T → v ≤ g := by
        intro g hgm hgT
        rcases List.mem_cons.mp hgm with rfl | h
        · exact Nat.le_refl g
        · exact Nat.le_of_lt (hgray g h hgT)
      obtain ⟨⟨D, hD⟩, hI2, hmem2, hnew2, hall2, hreach2⟩ :=
        hfold (ord v) (hb v) (v :: V) T hIvV hgV
      have hvT2 : v ∉ ((ord v).foldl (fun a c => buildTopoO ord v c a)
          (v :: V, T)).2 := by
        intro hvR
        rcases hnew2 v hvR with h | h
        · exact hvT h
        · exact h (List.mem_cons_self v V)
      have hvV2 : v ∈ ((ord v).foldl (fun a c => buildTopoO ord v c a)
          (v :: V, T)).1 :=
        (hmem2 v).2 (.inl (List.mem_cons_self v V))
      have hchild : ∀ c ∈ ord v,
          c ∈ ((ord v).foldl (fun a c => buildTopoO ord v c a)
            (v :: V, T)).2 := by
        intro c hcm
        by_contra hcT
        rcases (hmem2 c).1 (hall2 c hcm) with h | h
        · rcases List.mem_cons.mp h with he | h'
          · exact absurd (he ▸ hb v c hcm) (lt_irrefl v)
          · have hcT' : c ∉ T := fun hT => hcT (by
              rw [hD]
              exact List.mem_append_left _ hT)
            exact absurd (hb v c hcm) (Nat.lt_asymm (hgray c h' hcT'))
        · exact hcT h
      refine ⟨⟨D ++ [v], by rw [hD, List.append_assoc]⟩, ?_, ?_, ?_, ?_, ?_⟩
      · refine ⟨?_, ?_, ?_, ?_, ?_⟩
        · refine List.nodup_append.mpr ⟨hI2.1, List.nodup_singleton v, ?_⟩
          intro x hx hx'
          rw [List.mem_singleton] at hx'
          subst hx'
          exact hvT2 hx
        · intro x hx
          rcases List.mem_append.mp hx with h | h
          · exact hI2.2.1 x h
          · rw [List.mem_singleton] at h
            subst h
            exact hvV2
        · intro x hx c0 hc0
          rcases List.mem_append.mp hx with h | h
          · exact List.mem_append_left _ (hI2.2.2.1 x h c0 hc0)
          · rw [List.mem_singleton] at h
            subst h
            exact List.mem_append_left _ (hchild c0 hc0)
        · refine List.pairwise_append.mpr
            ⟨hI2.2.2.2.1, List.pairwise_singleton _ v, ?_⟩
          intro x hx y hy
          rw [List.mem_singleton] at hy
          subst hy
          intro hyo
          exact hvT2 (hI2.2.2.1 x hx y hyo)
        · intro x hx y hr
          rcases List.mem_append.mp hx with h | h
          · exact List.mem_append_left _ (hI2.2.2.2.2 x h y hr)
          · rw [List.mem_singleton] at h
            subst h
            cases hr with
            | refl => exact List.mem_append_right _ (List.mem_singleton_self _)
            | step hm hr' =>
                exact List.mem_append_left _
                  (hI2.2.2.2.2 _ (hchild _ hm) _ hr')
      · intro x
        rw [hmem2 x]
        constructor
        · rintro (hx | hx)
          · rcases List.mem_cons.mp hx with rfl | h
            · exact .inr (List.mem_append_right _ (List.mem_singleton_self _))
            · exact .inl h
          · exact .inr (List.mem_append_left _ hx)
        · rintro (hx | hx)
          · exact .inl (List.mem_cons_of_mem v hx)
          · rcases List.mem_append.mp hx with h | h
            · exact .inr h
            · rw [List.mem_singleton] at h
              subst h
              exact .inl (List.mem_cons_self x V)
      · intro x hx
        rcases List.mem_append.mp hx with h | h
        · rcases hnew2 x h with h' | h'
          · exact .inl h'
          · exact .inr (fun hxV => h' (List.mem_cons_of_mem v hxV))
        · rw [List.mem_singleton] at h
          subst h
          exact .inr hv
      · exact List.mem_append_right _ (List.mem_singleton_self _)
      · intro x hx
        rcases List.mem_append.mp hx with h | h
        · rcases hreach2 x h with h' | ⟨c', hc', hr⟩
          · exact .inl h'
          · exact .inr (ReachO.step hc' hr)
        · rw [List.mem_singleton] at h
          subst h
          exact .inr (ReachO.refl x)

/-! ## Consequences of the master lemma -/

theorem topoOf_spec (ord : NodeId → List NodeId)
    (hb : ∀ v, ∀ c ∈ ord v, c < v) (r : NodeId) :
    (topoOf ord r).Nodup ∧
    (∀ x, x ∈ topoOf ord r ↔ ReachO ord r x) ∧
    (topoOf ord r).Pairwise (fun x y => y ∉ ord x) ∧
    (∀ v ∈ topoOf ord r, ∀ c ∈ ord v, c ∈ topoOf ord r) := by
  have hI0 : InvTopo ord [] [] :=
    ⟨List.nodup_nil, by simp, by simp, List.Pairwise.nil, by simp⟩
  obtain ⟨_, hI, _, _, hrT, hreach⟩ :=
    buildTopo_master ord hb r [] [] hI0 (by simp)
  refine ⟨hI.1, ?_, hI.2.2.2.1, hI.2.2.1⟩
  intro x
  constructor
  · intro hx
    rcases hreach x hx with h | h
    · exact absurd h (List.not_mem_nil x)
    · exact h
  · intro hx
    exact hI.2.2.2.2 r hrT x hx

theorem reachO_congr (ord1 ord2 : NodeId → List NodeId)
    (h : ∀ v c, c ∈ ord1 v ↔ c ∈ ord2 v) (x y : NodeId) :
    ReachO ord1 x y ↔ ReachO ord2 x y := by
  constructor
  · intro hr
    induction hr with
    | refl v => exact ReachO.refl v
    | step hm _ ih => exact ReachO.step ((h _ _).mp hm) ih
  · intro hr
    induction hr with
    | refl v => exact ReachO.refl v
    | step hm _ ih => exact ReachO.step ((h _ _).mpr hm) ih

theorem reachO_le (ord : NodeId → List NodeId)
    (hb : ∀ v, ∀ c ∈ ord v, c < v) {r x : NodeId} (h : ReachO ord r x) :
    x ≤ r := by
  induction h with
  | refl v => exact Nat.le_refl v
  | step hm _ ih =>
      exact Nat.le_trans ih (Nat.le_of_lt (hb _ _ hm))

theorem ReachO.snoc (ord : NodeId → List NodeId) {r w c : NodeId}
    (h : ReachO ord r w) (hc : c ∈ ord w) : ReachO ord r c := by
  induction h with
  | refl v => exact ReachO.step hc (ReachO.refl c)
  | step hm _ ih => exact ReachO.step hm (ih hc)

theorem nodeOf_out_of_range (s : State) (v : NodeId)
    (h : s.length ≤ v) : nodeOf s v = dNode := by
  simp [nodeOf, List.getD, List.getElem?_eq_none h]

theorem wfb_bound (s : State) (h : WFb s = true) :
    ∀ v, ∀ c ∈ prevOf s v, c < v := by
  intro v c hc
  by_cases hv : v < s.length
  · rw [WFb, List.all_eq_true] at h
    have h2 := h v (List.mem_range.mpr hv)
    rw [List.all_eq_true] at h2
    exact of_decide_eq_true (h2 c hc)
  · rw [prevOf, nodeOf_out_of_range s v (Nat.le_of_not_lt hv)] at hc
    exact absurd hc (List.not_mem_nil c)

theorem bopwfb_bound (s : State) (h : BopWFb s = true) :
    ∀ v, v < s.length → ∀ c ∈ slots (bopOf s v), c ∈ prevOf s v := by
  intro v hv c hc
  rw [BopWFb, List.all_eq_true] at h
  have h2 := h v (List.mem_range.mpr hv)
  rw [List.all_eq_true] at h2
  exact of_decide_eq_true (h2 c hc)

theorem pairwise_ord_indexOf (ord : NodeId → List NodeId)
    (hb : ∀ v, ∀ c ∈ ord v, c < v) (T : List NodeId) (hnd : T.Nodup)
    (hpw : T.Pairwise (fun x y => y ∉ ord x)) :
    ∀ v ∈ T, ∀ c ∈ ord v, c ∈ T → T.indexOf c < T.indexOf v := by
  intro v hv c hc hcT
  have hne : c ≠ v := Nat.ne_of_lt (hb v c hc)
  have hi : T.indexOf c < T.length := List.indexOf_lt_length.mpr hcT
  have hj : T.indexOf v < T.length := List.indexOf_lt_length.mpr hv
  have hgc : T.get ⟨T.indexOf c, hi⟩ = c := List.indexOf_get hi
  have hgv : T.get ⟨T.indexOf v, hj⟩ = v := List.indexOf_get hj
  rcases Nat.lt_trichotomy (T.indexOf c) (T.indexOf v) with h | h | h
  · exact h
  · exfalso
    apply hne
    rw [← hgc, ← hgv]
    congr 1
    exact Fin.ext h
  · exfalso
    have := (List.pairwise_iff_get.mp hpw) ⟨T.indexOf v, hj⟩
      ⟨T.indexOf c, hi⟩ h
    rw [hgc, hgv] at this
    exact this hc

theorem backwardO_foldl (ord : NodeId → List NodeId) (s : State)
    (r : NodeId) :
    backwardO ord s r =
      List.foldl runBack (setGrad s r 1) (topoOf ord r).reverse := rfl

theorem topoOf_last (ord : NodeId → List NodeId) (r : NodeId) :
    ∃ T0, topoOf ord r = T0 ++ [r] := by
  rw [topoOf, buildTopoO_succ]
  simp only [List.not_mem_nil, if_false]
  exact ⟨_, rfl⟩

/-- C1: for a well-formed graph, `backward` computes a depth-first
postorder `topo` of exactly the nodes reachable from the terminal, keyed by
node identity, with no duplicates; every node appears strictly after each
of its operands; and the pass is precisely the fold of the per-node
`_backward` closures over the reverse of that order (so each reachable
node's closure runs exactly once). -/
theorem c1_backward_topological (s : State) (r : NodeId)
    (hwf : WFb s = true) (hr : r < s.length) :
    (topoOf (prevOf s) r).Nodup ∧
    (∀ x, x ∈ topoOf (prevOf s) r ↔ Reach s r x) ∧
    (∀ v ∈ topoOf (prevOf s) r, ∀ c ∈ prevOf s v,
      c ∈ topoOf (prevOf s) r ∧
      (topoOf (prevOf s) r).indexOf c < (topoOf (prevOf s) r).indexOf v) ∧
    backward s r =
      List.foldl runBack (setGrad s r 1) (topoOf (prevOf s) r).reverse := by
  have hb := wfb_bound s hwf
  obtain ⟨hnd, hmem, hpw, hcl⟩ := topoOf_spec (prevOf s) hb r
  refine ⟨hnd, hmem, ?_, rfl⟩
  intro v hv c hc
  have hcT : c ∈ topoOf (prevOf s) r := hcl v hv c hc
  exact ⟨hcT, pairwise_ord_indexOf (prevOf s) hb _ hnd hpw v hv c hc hcT⟩

/-- Witness for `c1_backward_topological` on the diamond graph. -/
theorem c1_backward_topological_witness :
    (WFb (diamondC 3).1 = true ∧ 2 < (diamondC 3).1.length) ∧
    ((topoOf (prevOf (diamondC 3).1) 2).Nodup ∧
    (∀ x, x ∈ topoOf (prevOf (diamondC 3).1) 2 ↔
      Reach (diamondC 3).1 2 x) ∧
    (∀ v ∈ topoOf (prevOf (diamondC 3).1) 2,
      ∀ c ∈ prevOf (diamondC 3).1 v,
      c ∈ topoOf (prevOf (diamondC 3).1) 2 ∧
      (topoOf (prevOf (diamondC 3).1) 2).indexOf c <
        (topoOf (prevOf (diamondC 3).1) 2).indexOf v) ∧
    backward (diamondC 3).1 2 =
      List.foldl runBack (setGrad (diamondC 3).1 2 1)
        (topoOf (prevOf (diamondC 3).1) 2).reverse) :=
  ⟨⟨by decide, by decide⟩,
   c1_backward_topological (diamondC 3).1 2 (by decide) (by decide)⟩

/-! ## The frame of the backward pass -/

theorem foldl_runBack_preserves (s : State) :
    ∀ (L : List NodeId) (t : State),
      ((∀ v, dataOf t v = dataOf s v) ∧ (∀ v, prevOf t v = prevOf s v) ∧
       (∀ v, bopOf t v = bopOf s v) ∧ (∀ v, opOf t v = opOf s v) ∧
       (∀ v, labelOf t v = labelOf s v) ∧ t.length = s.length) →
      ((∀ v, dataOf (List.foldl runBack t L) v = dataOf s v) ∧
       (∀ v, prevOf (List.foldl runBack t L) v = prevOf s v) ∧
       (∀ v, bopOf (List.foldl runBack t L) v = bopOf s v) ∧
       (∀ v, opOf (List.foldl runBack t L) v = opOf s v) ∧
       (∀ v, labelOf (List.foldl runBack t L) v = labelOf s v) ∧
       (List.foldl runBack t L).length = s.length) := by
  intro L
  induction L with
  | nil => intro t h; exact h
  | cons w L ih =>
      intro t h
      apply ih
      exact ⟨fun v => by rw [dataOf_runBack]; exact h.1 v,
        fun v => by rw [prevOf_runBack]; exact h.2.1 v,
        fun v => by rw [bopOf_runBack]; exact h.2.2.1 v,
        fun v => by rw [opOf_runBack]; exact h.2.2.2.1 v,
        fun v => by rw [labelOf_runBack]; exact h.2.2.2.2.1 v,
        by rw [length_runBack]; exact h.2.2.2.2.2⟩

theorem foldl_grad_unreachable (s : State) (r : NodeId)
    (hwf : WFb s = true) (hbop : BopWFb s = true) (hr : r < s.length) :
    ∀ (L : List NodeId) (t : State), (∀ w ∈ L, Reach s r w) →
      (∀ v, bopOf t v = bopOf s v) →
      ∀ v, ¬ Reach s r v →
        gradOf (List.foldl runBack t L) v = gradOf t v := by
  have hb := wfb_bound s hwf
  intro L
  induction L with
  | nil => intro t _ _ v _; rfl
  | cons w L ih =>
      intro t hL hbt v hv
      have hwr : Reach s r w := hL w (List.mem_cons_self w L)
      have hwlen : w < s.length :=
        Nat.lt_of_le_of_lt (reachO_le (prevOf s) hb hwr) hr
      have hvslot : v ∉ slots (bopOf t w) := by
        rw [hbt w]
        intro hmem
        exact hv (ReachO.snoc (prevOf s) hwr
          (bopwfb_bound s hbop w hwlen v hmem))
      have h1 : gradOf (runBack t w) v = gradOf t v :=
        gradOf_runBack_not_slot t w v hvslot
      rw [List.foldl_cons,
          ih (runBack t w) (fun x hx => hL x (List.mem_cons_of_mem w hx))
            (fun u => by rw [bopOf_runBack]; exact hbt u) v hv, h1]

/-- C7: `backpropagate` mutates only gradients: for every node the
`data`, `_prev`, `_backward` closure, `_op` and `label` are unchanged (and
no node is allocated or freed), and the gradient of every node outside the
subgraph reachable from the terminal is untouched. -/
theorem c7_backward_frame (s : State) (r : NodeId) (hwf : WFb s = true)
    (hbop : BopWFb s = true) (hr : r < s.length) :
    (∀ v, dataOf (backward s r) v = dataOf s v) ∧
    (∀ v, prevOf (backward s r) v = prevOf s v) ∧
    (∀ v, bopOf (backward s r) v = bopOf s v) ∧
    (∀ v, opOf (backward s r) v = opOf s v) ∧
    (∀ v, labelOf (backward s r) v = labelOf s v) ∧
    (backward s r).length = s.length ∧
    (∀ v, ¬ Reach s r v → gradOf (backward s r) v = gradOf s v) := by
  have hb := wfb_bound s hwf
  have hseed : (∀ v, dataOf (setGrad s r 1) v = dataOf s v) ∧
      (∀ v, prevOf (setGrad s r 1) v = prevOf s v) ∧
      (∀ v, bopOf (setGrad s r 1) v = bopOf s v) ∧
      (∀ v, opOf (setGrad s r 1) v = opOf s v) ∧
      (∀ v, labelOf (setGrad s r 1) v = labelOf s v) ∧
      (setGrad s r 1).length = s.length :=
    ⟨fun v => dataOf_setGrad s r 1 v, fun v => prevOf_setGrad s r 1 v,
     fun v => bopOf_setGrad s r 1 v, fun v => opOf_setGrad s r 1 v,
     fun v => labelOf_setGrad s r 1 v, length_setGrad s r 1⟩
  have hpres := foldl_runBack_preserves s (topoOf (prevOf s) r).reverse
    (setGrad s r 1) hseed
  obtain ⟨_, hmem, _, _⟩ := topoOf_spec (prevOf s) hb r
  refine ⟨hpres.1, hpres.2.1, hpres.2.2.1, hpres.2.2.2.1,
    hpres.2.2.2.2.1, hpres.2.2.2.2.2, ?_⟩
  intro v hv
  have hgrad := foldl_grad_unreachable s r hwf hbop hr
    (topoOf (prevOf s) r).reverse (setGrad s r 1)
    (fun w hw => (hmem w).mp (List.mem_reverse.mp hw))
    (fun u => bopOf_setGrad s r 1 u) v hv
  show gradOf (List.foldl runBack (setGrad s r 1)
    (topoOf (prevOf s) r).reverse) v = gradOf s v
  rw [hgrad, gradOf_setGrad]
  have hvr : v ≠ r := fun he => hv (he ▸ ReachO.refl v)
  simp [Ne.symm hvr]

/-- Witness for `c7_backward_frame` on the diamond graph. -/
theorem c7_backward_frame_witness :
    (WFb (diamondC 3).1 = true ∧ BopWFb (diamondC 3).1 = true ∧
      2 < (diamondC 3).1.length) ∧
    ((∀ v, dataOf (backward (diamondC 3).1 2) v = dataOf (diamondC 3).1 v) ∧
    (∀ v, prevOf (backward (diamondC 3).1 2) v = prevOf (diamondC 3).1 v) ∧
    (∀ v, bopOf (backward (diamondC 3).1 2) v = bopOf (diamondC 3).1 v) ∧
    (∀ v, opOf (backward (diamondC 3).1 2) v = opOf (diamondC 3).1 v) ∧
    (∀ v, labelOf (backward (diamondC 3).1 2) v =
      labelOf (diamondC 3).1 v) ∧
    (backward (diamondC 3).1 2).length = (diamondC 3).1.length ∧
    (∀ v, ¬ Reach (diamondC 3).1 2 v →
      gradOf (backward (diamondC 3).1 2) v = gradOf (diamondC 3).1 v)) :=
  ⟨⟨by decide, by decide, by decide⟩,
   c7_backward_frame (diamondC 3).1 2 (by decide) (by decide) (by decide)⟩

/-- C10: the observable result of the backward pass does not depend on the
order in which `build_topo` enumerates each node's operand set: any two
enumeration orders (any permutations of the operand sets) lead to exactly
the same final state, gradients included. -/
theorem c10_order_independence (s : State) (r : NodeId)
    (hwf : WFb s = true) (hbop : BopWFb s = true) (hr : r < s.length)
    (ord1 ord2 : NodeId → List NodeId)
    (h1 : ∀ v, (ord1 v).Perm (prevOf s v))
    (h2 : ∀ v, (ord2 v).Perm (prevOf s v)) :
    backwardO ord1 s r = backwardO ord2 s r := by
  have hb := wfb_bound s hwf
  have hb1 : ∀ v, ∀ c ∈ ord1 v, c < v :=
    fun v c hc => hb v c ((h1 v).mem_iff.mp hc)
  have hb2 : ∀ v, ∀ c ∈ ord2 v, c < v :=
    fun v c hc => hb v c ((h2 v).mem_iff.mp hc)
  obtain ⟨hnd1, hmem1, hpw1, _⟩ := topoOf_spec ord1 hb1 r
  obtain ⟨hnd2, hmem2, hpw2, _⟩ := topoOf_spec ord2 hb2 r
  have hmemeq : ∀ x, x ∈ topoOf ord1 r ↔ x ∈ topoOf ord2 r := by
    intro x
    rw [hmem1 x, hmem2 x,
        reachO_congr ord1 (prevOf s) (fun v c => (h1 v).mem_iff) r x,
        reachO_congr ord2 (prevOf s) (fun v c => (h2 v).mem_iff) r x]
  have hperm : (topoOf ord1 r).Perm (topoOf ord2 r) :=
    (List.perm_ext_iff_of_nodup hnd1 hnd2).mpr hmemeq
  have hltlen1 : ∀ x ∈ topoOf ord1 r, x < s.length := fun x hx =>
    Nat.lt_of_le_of_lt (reachO_le ord1 hb1 ((hmem1 x).mp hx)) hr
  have hltlen2 : ∀ x ∈ topoOf ord2 r, x < s.length := fun x hx =>
    Nat.lt_of_le_of_lt (reachO_le ord2 hb2 ((hmem2 x).mp hx)) hr
  have hsl1 : (topoOf ord1 r).reverse.Pairwise
      (fun x y => x ∉ slots (bopOf s y)) := by
    rw [List.pairwise_reverse]
    exact List.Pairwise.imp_of_mem
      (fun ha hb' hrel hmem => hrel ((h1 _).mem_iff.mpr
        (bopwfb_bound s hbop _ (hltlen1 _ ha) _ hmem))) hpw1
  have hsl2 : (topoOf ord2 r).reverse.Pairwise
      (fun x y => x ∉ slots (bopOf s y)) := by
    rw [List.pairwise_reverse]
    exact List.Pairwise.imp_of_mem
      (fun ha hb' hrel hmem => hrel ((h2 _).mem_iff.mpr
        (bopwfb_bound s hbop _ (hltlen2 _ ha) _ hmem))) hpw2
  have hself : ∀ w ∈ (topoOf ord1 r).reverse, w ∉ slots (bopOf s w) := by
    intro w hw hmem
    have hwlen : w < s.length := hltlen1 w (List.mem_reverse.mp hw)
    exact absurd (hb w w (bopwfb_bound s hbop w hwlen w hmem))
      (lt_irrefl w)
  rw [backwardO_foldl, backwardO_foldl]
  exact foldl_runBack_perm s (topoOf ord1 r).reverse
    (topoOf ord2 r).reverse (setGrad s r 1)
    (agree_setGrad s s r 1 (Agree.refl s))
    (((topoOf ord1 r).reverse_perm.trans hperm).trans
      (topoOf ord2 r).reverse_perm.symm)
    (List.nodup_reverse.mpr hnd1) hsl1 hsl2 hself

/-- Witness for `c10_order_independence` on the diamond graph, with the
reversed operand enumeration against the canonical one. -/
theorem c10_order_independence_witness :
    (WFb (diamondC 3).1 = true ∧ BopWFb (diamondC 3).1 = true ∧
      2 < (diamondC 3).1.length ∧
      (∀ v, ((fun u => (prevOf (diamondC 3).1 u).reverse) v).Perm
        (prevOf (diamondC 3).1 v)) ∧
      (∀ v, (prevOf (diamondC 3).1 v).Perm (prevOf (diamondC 3).1 v))) ∧
    backwardO (fun u => (prevOf (diamondC 3).1 u).reverse)
        (diamondC 3).1 2 =
      backwardO (prevOf (diamondC 3).1) (diamondC 3).1 2 :=
  ⟨⟨by decide, by decide, by decide,
    fun v => (prevOf (diamondC 3).1 v).reverse_perm,
    fun v => List.Perm.refl _⟩,
   c10_order_independence (diamondC 3).1 2 (by decide) (by decide)
     (by decide) _ _ (fun v => (prevOf (diamondC 3).1 v).reverse_perm)
     (fun v => List.Perm.refl _)⟩

/-! ## The second backward pass on a depth-one graph -/

theorem incs_congr2 (t t' : State) (w : NodeId)
    (hbop : bopOf t w = bopOf t' w)
    (hdata : ∀ v, dataOf t v = dataOf t' v) : incs t w = incs t' w := by
  unfold incs
  rw [hbop]
  cases bopOf t' w <;> simp [hdata]

theorem applyIncs_grad_shift :
    ∀ (l : List (NodeId × ℚ)) (t t' : State), t.length = t'.length →
      ∀ (g : ℚ) (v : NodeId),
      gradOf (applyIncs t l g) v - gradOf t v =
        gradOf (applyIncs t' l g) v - gradOf t' v := by
  intro l
  induction l with
  | nil => intro t t' _ g v; simp [applyIncs]
  | cons p l ih =>
      intro t t' hlen g v
      have h1 := ih (addGrad t p.1 (p.2 * g)) (addGrad t' p.1 (p.2 * g))
        (by rw [length_addGrad, length_addGrad, hlen]) g v
      have h2 : gradOf (addGrad t p.1 (p.2 * g)) v - gradOf t v =
          gradOf (addGrad t' p.1 (p.2 * g)) v - gradOf t' v := by
        rw [gradOf_addGrad, gradOf_addGrad, hlen]
        split_ifs <;> ring
      show gradOf (applyIncs (addGrad t p.1 (p.2 * g)) l g) v -
          gradOf t v = _
      have h3 : gradOf (applyIncs (addGrad t p.1 (p.2 * g)) l g) v -
          gradOf (addGrad t p.1 (p.2 * g)) v =
          gradOf (applyIncs (addGrad t' p.1 (p.2 * g)) l g) v -
            gradOf (addGrad t' p.1 (p.2 * g)) v := h1
      show _ = gradOf (applyIncs (addGrad t' p.1 (p.2 * g)) l g) v -
          gradOf t' v
      linarith [h2, h3]

/-- The increment `runBack` adds to any gradient depends only on the
node's closure, the forward values, the heap size and the node's own
gradient at invocation time. -/
theorem runBack_increment (t t' : State) (w : NodeId)
    (hbop : bopOf t w = bopOf t' w)
    (hdata : ∀ v, dataOf t v = dataOf t' v)
    (hlen : t.length = t'.length) (hg : gradOf t w = gradOf t' w)
    (hw : w ∉ slots (bopOf t w)) :
    ∀ v, gradOf (runBack t w) v - gradOf t v =
      gradOf (runBack t' w) v - gradOf t' v := by
  intro v
  rw [runBack_eq_applyIncs t w hw,
      runBack_eq_applyIncs t' w (hbop ▸ hw),
      incs_congr2 t t' w hbop hdata, hg]
  exact applyIncs_grad_shift (incs t' w) t t' hlen (gradOf t' w) v

theorem foldl_runBack_leaf_noop :
    ∀ (L : List NodeId) (t : State), (∀ w ∈ L, bopOf t w = BOp.leaf) →
      List.foldl runBack t L = t := by
  intro L
  induction L with
  | nil => intro t _; rfl
  | cons w L ih =>
      intro t hL
      have hstep : runBack t w = t := by
        unfold runBack
        rw [hL w (List.mem_cons_self w L)]
      rw [List.foldl_cons, hstep]
      exact ih t (fun x hx => hL x (List.mem_cons_of_mem w hx))

/-- On a graph whose terminal has only leaf operands, the whole backward
pass is the seed assignment followed by the terminal's own closure. -/
theorem backward_depth1_eq (s : State) (r : NodeId) (hwf : WFb s = true)
    (hbop : BopWFb s = true) (hr : r < s.length)
    (hleaf : ∀ c ∈ prevOf s r, prevOf s c = []) :
    backward s r = runBack (setGrad s r 1) r := by
  have hb := wfb_bound s hwf
  obtain ⟨hnd, hmem, _, _⟩ := topoOf_spec (prevOf s) hb r
  obtain ⟨T0, hT0⟩ := topoOf_last (prevOf s) r
  have hreachchar : ∀ x, Reach s r x → x = r ∨ x ∈ prevOf s r := by
    intro x hx
    cases hx with
    | refl => exact .inl rfl
    | step hm hr' =>
        cases hr' with
        | refl => exact .inr hm
        | step hm2 _ =>
            rw [hleaf _ hm] at hm2
            exact absurd hm2 (List.not_mem_nil _)
  have hT0leaf : ∀ w ∈ T0, bopOf s w = BOp.leaf := by
    intro w hw
    have hwt : w ∈ topoOf (prevOf s) r := by
      rw [hT0]; exact List.mem_append_left _ hw
    have hwr : Reach s r w := (hmem w).mp hwt
    have hwne : w ≠ r := by
      intro he
      subst he
      have hnd' := hT0 ▸ hnd
      exact (List.nodup_append.mp hnd').2.2 hw (List.mem_singleton_self w)
    rcases hreachchar w hwr with he | hm
    · exact absurd he hwne
    · have hwlen : w < s.length :=
        Nat.lt_of_le_of_lt (reachO_le (prevOf s) hb hwr) hr
      have hslots : slots (bopOf s w) = [] := by
        rw [List.eq_nil_iff_forall_not_mem]
        intro c hc
        have hcp := bopwfb_bound s hbop w hwlen c hc
        rw [hleaf w hm] at hcp
        exact absurd hcp (List.not_mem_nil c)
      cases hB : bopOf s w <;>
        first
          | rfl
          | (rw [hB] at hslots; simp [slots] at hslots)
  show List.foldl runBack (setGrad s r 1) (topoOf (prevOf s) r).reverse = _
  rw [hT0, List.reverse_append, List.reverse_singleton]
  show List.foldl runBack (runBack (setGrad s r 1) r) T0.reverse = _
  apply foldl_runBack_leaf_noop
  intro w hw
  rw [bopOf_runBack, bopOf_setGrad]
  exact hT0leaf w (List.mem_reverse.mp hw)

theorem backward_preserves (s : State) (r : NodeId) :
    (∀ v, dataOf (backward s r) v = dataOf s v) ∧
    (∀ v, prevOf (backward s r) v = prevOf s v) ∧
    (∀ v, bopOf (backward s r) v = bopOf s v) ∧
    (backward s r).length = s.length := by
  have h := foldl_runBack_preserves s (topoOf (prevOf s) r).reverse
    (setGrad s r 1)
    ⟨fun v => dataOf_setGrad s r 1 v, fun v => prevOf_setGrad s r 1 v,
     fun v => bopOf_setGrad s r 1 v, fun v => opOf_setGrad s r 1 v,
     fun v => labelOf_setGrad s r 1 v, length_setGrad s r 1⟩
  exact ⟨h.1, h.2.1, h.2.2.1, h.2.2.2.2.2⟩

theorem wfb_congr (t s : State) (hL : t.length = s.length)
    (hp : ∀ v, prevOf t v = prevOf s v) : WFb t = WFb s := by
  simp only [WFb, hL]
  congr 1
  funext i
  rw [hp i]

theorem bopwfb_congr (t s : State) (hL : t.length = s.length)
    (hp : ∀ v, prevOf t v = prevOf s v)
    (hbp : ∀ v, bopOf t v = bopOf s v) : BopWFb t = BopWFb s := by
  simp only [BopWFb, hL]
  congr 1
  funext i
  rw [hp i, hbp i]

/-- C3 amended: calling `backpropagate` twice without resetting does not
double all gradients in general (the chain counterexample triples a
depth-two node, and the terminal's gradient is overwritten back to `1.0`
by the seed).  The doubling contract does hold on graphs whose terminal has
only leaf operands and whose gradients start at zero: after the second
call the terminal's gradient is still `1.0` and every other node holds
exactly twice its single-call gradient. -/
theorem c3_double_depth_one (s : State) (r : NodeId) (hwf : WFb s = true)
    (hbop : BopWFb s = true) (hr : r < s.length)
    (hleaf : ∀ c ∈ prevOf s r, prevOf s c = [])
    (hzero : ∀ v, gradOf s v = 0) :
    gradOf (backward s r) r = 1 ∧
    gradOf (backward (backward s r) r) r = 1 ∧
    (∀ v, v ≠ r →
      gradOf (backward (backward s r) r) v =
        2 * gradOf (backward s r) v) := by
  have hb := wfb_bound s hwf
  obtain ⟨hdata1, hprev1, hbop1, hlen1⟩ := backward_preserves s r
  have hwf1 : WFb (backward s r) = true := by
    rw [wfb_congr (backward s r) s hlen1 hprev1]; exact hwf
  have hbopwf1 : BopWFb (backward s r) = true := by
    rw [bopwfb_congr (backward s r) s hlen1 hprev1 hbop1]; exact hbop
  have hr1 : r < (backward s r).length := by rw [hlen1]; exact hr
  have hleaf1 : ∀ c ∈ prevOf (backward s r) r,
      prevOf (backward s r) c = [] := by
    intro c hc
    rw [hprev1]
    exact hleaf c (by rw [hprev1 r] at hc; exact hc)
  have hcol1 : backward s r = runBack (setGrad s r 1) r :=
    backward_depth1_eq s r hwf hbop hr hleaf
  have hcol2 : backward (backward s r) r =
      runBack (setGrad (backward s r) r 1) r :=
    backward_depth1_eq (backward s r) r hwf1 hbopwf1 hr1 hleaf1
  have hrslot : r ∉ slots (bopOf s r) := by
    intro hmem
    exact absurd (hb r r (bopwfb_bound s hbop r hr r hmem)) (lt_irrefl r)
  have hrslott : r ∉ slots (bopOf (setGrad s r 1) r) := by
    rw [bopOf_setGrad]; exact hrslot
  have hrslott' : r ∉ slots (bopOf (setGrad (backward s r) r 1) r) := by
    rw [bopOf_setGrad, hbop1]; exact hrslot
  have hgr1 : gradOf (backward s r) r = 1 := by
    rw [hcol1, gradOf_runBack_not_slot _ _ _ hrslott, gradOf_setGrad]
    simp [hr]
  have hgr2 : gradOf (backward (backward s r) r) r = 1 := by
    rw [hcol2, gradOf_runBack_not_slot _ _ _ hrslott', gradOf_setGrad]
    simp [hr1]
  refine ⟨hgr1, hgr2, ?_⟩
  intro v hv
  have hshift := runBack_increment (setGrad s r 1)
    (setGrad (backward s r) r 1) r
    (by rw [bopOf_setGrad, bopOf_setGrad, hbop1])
    (fun u => by rw [dataOf_setGrad, dataOf_setGrad, hdata1])
    (by rw [length_setGrad, length_setGrad, hlen1])
    (by rw [gradOf_setGrad, gradOf_setGrad]; simp [hr, hr1])
    hrslott v
  have hseed1 : gradOf (setGrad s r 1) v = 0 := by
    rw [gradOf_setGrad]
    simp [Ne.symm hv, hzero v]
  have hseed2 : gradOf (setGrad (backward s r) r 1) v =
      gradOf (backward s r) v := by
    rw [gradOf_setGrad]
    simp [Ne.symm hv]
  rw [hcol2, hcol1]
  rw [hcol1] at hshift hseed2
  linarith [hshift, hseed1, hseed2]

/-- Witness for `c3_double_depth_one` on the graph `c = a + b` over two
leaves. -/
theorem c3_double_depth_one_witness :
    (WFb (addV (twoLeafS 3 4) 0 1).1 = true ∧
      BopWFb (addV (twoLeafS 3 4) 0 1).1 = true ∧
      2 < (addV (twoLeafS 3 4) 0 1).1.length ∧
      (∀ c ∈ prevOf (addV (twoLeafS 3 4) 0 1).1 2,
        prevOf (addV (twoLeafS 3 4) 0 1).1 c = []) ∧
      (∀ v, gradOf (addV (twoLeafS 3 4) 0 1).1 v = 0)) ∧
    (gradOf (backward (addV (twoLeafS 3 4) 0 1).1 2) 2 = 1 ∧
    gradOf (backward (backward (addV (twoLeafS 3 4) 0 1).1 2) 2) 2 = 1 ∧
    (∀ v, v ≠ 2 →
      gradOf (backward (backward (addV (twoLeafS 3 4) 0 1).1 2) 2) v =
        2 * gradOf (backward (addV (twoLeafS 3 4) 0 1).1 2) v)) := by
  have hg : ∀ v, gradOf (addV (twoLeafS 3 4) 0 1).1 v = 0 := by
    intro v
    rcases Nat.lt_or_ge v 3 with h | h
    · interval_cases v <;> decide
    · rw [gradOf, nodeOf_out_of_range]
      · rfl
      · simpa [twoLeafS, addV, leafV, pushNode] using h
  have hl : ∀ c ∈ prevOf (addV (twoLeafS 3 4) 0 1).1 2,
      prevOf (addV (twoLeafS 3 4) 0 1).1 c = [] := by
    decide
  exact ⟨⟨by decide, by decide, by decide, hl, hg⟩,
    c3_double_depth_one (addV (twoLeafS 3 4) 0 1).1 2 (by decide)
      (by decide) (by decide) hl hg⟩
